import Mathlib

/-!
Verification of the versioned sort-key cache engine of `warp-contracts-redis`
(`src/redisCache.ts` together with the Lua scripts of `src/luaScripts.ts`).

The backing store is modelled shallowly: Redis byte strings are lists of
characters (for the ASCII data in play, codepoint order coincides with the
`memcmp` order Redis uses for lexicographic range queries), the value store is
an association list, and the sorted set holding the `key|sortKey` members is a
list kept in ascending lexicographic order with no duplicates, which is how a
Redis sorted set whose members all carry score 0 behaves under `ZADD`,
`ZRANGEBYLEX` and friends.
-/

namespace WarpRedis

/-- A Redis byte string. -/
abbrev Str := List Char

/-- Strict lexicographic order on byte strings, as `memcmp` compares them:
a proper extension is greater than the string it extends. -/
def ltb : Str → Str → Bool
  | [], [] => false
  | [], _ :: _ => true
  | _ :: _, [] => false
  | a :: as, b :: bs => if a < b then true else if b < a then false else ltb as bs

/-- Non-strict companion of `ltb`. -/
def leb (s t : Str) : Bool := !(ltb t s)

/-- `isPre s t` holds when `s` is a (not necessarily proper) leading segment
of `t`. -/
def isPre : Str → Str → Bool
  | [], _ => true
  | _ :: _, [] => false
  | a :: as, b :: bs => if a = b then isPre as bs else false

/-- The model of JavaScript's `s.split(sep)` for a one-character separator
(the sub-level separator `subLevelSeparator` is the one-character string `"|"`
by default): the list of chunks between occurrences of `sep`, chunks may be
empty, and the result is never the empty list. -/
def splitChar (sep : Char) : Str → List Str
  | [] => [[]]
  | c :: rest =>
    match splitChar sep rest with
    | [] => [[]]
    | t :: ts => if c = sep then [] :: t :: ts else (c :: t) :: ts

/-- First component of a cache key, the model of `cacheKey.split(sls)[0]`. -/
def comp0 (sep : Char) (s : Str) : Str := (splitChar sep s).headI

/-- Second component of a cache key, the model of `cacheKey.split(sls)[1]`;
`none` models the `undefined` JavaScript yields when there is no separator. -/
def comp1 (sep : Char) (s : Str) : Option Str := (splitChar sep s).get? 1

/-! ## Sort-key sentinels

`warp-contracts` exposes `genesisSortKey` (lexicographically below every real
sort key) and `lastPossibleSortKey` (above every real sort key).  The Lua
scripts of `src/luaScripts.ts` hard-code the same two strings as range
bounds: twelve digits, a comma, thirteen digits, a comma, and sixty-four
characters. -/

/-- `000000000000,0000000000000,0000…0` — the genesis sort key. -/
def genesisSortKey : Str :=
  List.replicate 12 '0' ++ ',' :: List.replicate 13 '0' ++ ',' :: List.replicate 64 '0'

/-- `999999999999,9999999999999,zzzz…z` — the last possible sort key. -/
def lastPossibleSortKey : Str :=
  List.replicate 12 '9' ++ ',' :: List.replicate 13 '9' ++ ',' :: List.replicate 64 'z'

/-! ## The Redis backing store -/

/-- The slice of a Redis database a cache instance touches: the plain
key-value store (`GET`/`SET`/`DEL`) and the `{prefix}.keys` sorted set whose
members all have score 0, kept as a duplicate-free list in ascending
lexicographic order. -/
structure RedisState where
  store : List (Str × Str)
  zset : List Str
deriving DecidableEq

/-- The empty database. -/
def RedisState.empty : RedisState := ⟨[], []⟩

/-- `GET k`. -/
def storeGet : List (Str × Str) → Str → Option Str
  | [], _ => none
  | p :: rest, k => if p.1 = k then some p.2 else storeGet rest k

/-- `DEL k`. -/
def storeDel : List (Str × Str) → Str → List (Str × Str)
  | [], _ => []
  | p :: rest, k => if p.1 = k then storeDel rest k else p :: storeDel rest k

/-- `SET k v` (overwrite). -/
def storeSet (store : List (Str × Str)) (k v : Str) : List (Str × Str) :=
  (k, v) :: storeDel store k

/-- `ZADD 0 m` on a score-0 sorted set: insert the member in lexicographic
position, as a no-op when it is already present. -/
def zadd : List Str → Str → List Str
  | [], m => [m]
  | x :: xs, m =>
    if ltb m x then m :: x :: xs
    else if m = x then x :: xs
    else x :: zadd xs m

/-- `ZREM ms`: drop every listed member. -/
def zrem (zs : List Str) (ms : List Str) : List Str :=
  zs.filter (fun x => decide (x ∉ ms))

/-- One end of a `BYLEX` range: `-`, `+`, `[s` or `(s`. -/
inductive Bound
  | negInf
  | posInf
  | incl (s : Str)
  | excl (s : Str)

/-- Does member `m` satisfy the lower bound? -/
def aboveMin : Bound → Str → Bool
  | .negInf, _ => true
  | .posInf, _ => false
  | .incl s, m => leb s m
  | .excl s, m => ltb s m

/-- Does member `m` satisfy the upper bound? -/
def belowMax : Bound → Str → Bool
  | .posInf, _ => true
  | .negInf, _ => false
  | .incl s, m => leb m s
  | .excl s, m => ltb m s

/-- `ZRANGEBYLEX` (ascending): the members within the bounds, in the set's
ascending order. -/
def zrangeByLex (zs : List Str) (lo hi : Bound) : List Str :=
  zs.filter (fun m => aboveMin lo m && belowMax hi m)

/-- `ZREVRANGEBYLEX` without a limit: the same members, descending. -/
def zrevrangeByLex (zs : List Str) (hi lo : Bound) : List Str :=
  (zrangeByLex zs lo hi).reverse

/-- `ZRANGE … BYLEX REV LIMIT offset -1`: the members within the bounds in
descending order, skipping the first `offset` of them and returning all the
rest. -/
def zrangeRevTail (zs : List Str) (hi lo : Bound) (offset : Nat) : List Str :=
  (zrangeByLex zs lo hi).reverse.drop offset

/-- `ZLEXCOUNT`. -/
def zlexcount (zs : List Str) (lo hi : Bound) : Nat :=
  (zrangeByLex zs lo hi).length

/-! ## The cache engine (`RedisCache` of `src/redisCache.ts`) -/

/-- The configuration a `RedisCache` instance carries: `dbLocation` is the
prefix of every Redis key it writes, `sls` the one-character sub-level
separator (`"|"` by default), and the two retention bounds default to 10. -/
structure Cfg where
  dbLocation : Str
  sls : Char
  minEntriesPerContract : Nat
  maxEntriesPerContract : Nat

/-- `{prefix}.{cacheKey}`, the plain-store key of a composite member. -/
def Cfg.storeKey (cfg : Cfg) (cacheKey : Str) : Str :=
  cfg.dbLocation ++ '.' :: cacheKey

/-- `{key}{sls}{sortKey}`, a composite member of the `{prefix}.keys` set. -/
def Cfg.member (cfg : Cfg) (key sortKey : Str) : Str :=
  key ++ cfg.sls :: sortKey

/-- The errors the engine can raise.  Each constructor stands for one thrown
message: `zremEmpty` for the Redis error `ZREM` raises when a script calls it
with no members, `notCacheKey` for `"Result is not CacheKey"`, `jsonSyntax`
for the `SyntaxError` of `JSON.parse` on a non-JSON payload, `alreadyBegun`
for `"Already begun"` and `noTransaction` for `"No transaction"`. -/
inductive RErr
  | zremEmpty
  | notCacheKey
  | jsonSyntax
  | alreadyBegun
  | noTransaction
  | mgetArity
deriving DecidableEq

/-- The `sortkeycache_atomic_put` Lua script of `src/luaScripts.ts`:
`SET` the value, `ZADD` the composite member, count the members of this key in
`({key}{sls}{genesis}, {key}{sls}{sortKey}]`, and if the count exceeds
`maxCount`, remove every member strictly below the inserted one except the
`minCount` most recent (guarding the `ZREM` against an empty removal list). -/
def atomicPut (cfg : Cfg) (key sortKey value : Str) (st : RedisState) :
    RedisState :=
  let cacheKey := cfg.member key sortKey
  let store1 := storeSet st.store (cfg.storeKey cacheKey) value
  let zs1 := zadd st.zset cacheKey
  let count := zlexcount zs1 (.excl (cfg.member key genesisSortKey)) (.incl cacheKey)
  if cfg.maxEntriesPerContract < count then
    let toRemove :=
      zrangeRevTail zs1 (.excl cacheKey) (.excl (cfg.member key genesisSortKey))
        cfg.minEntriesPerContract
    if toRemove.isEmpty then ⟨store1, zs1⟩
    else
      ⟨toRemove.foldl (fun s ck => storeDel s (cfg.storeKey ck)) store1,
        zrem zs1 toRemove⟩
  else ⟨store1, zs1⟩

/-- The first run of non-separator characters of a member — the model of the
Lua `string.gmatch(cacheKey, "([^sls]+)")()` key extraction of the prune
script. -/
def firstToken (sep : Char) (s : Str) : Str :=
  (s.dropWhile (· = sep)).takeWhile (· ≠ sep)

/-- Collect distinct elements keeping first occurrences — the model of
filling a Lua table with the keys (the iteration order of `pairs` is not
specified by Lua; first-occurrence order is one faithful choice, and the
theorems below never depend on it). -/
def dedupKeep (l : List Str) : List Str :=
  l.foldl (fun acc x => if x ∈ acc then acc else acc ++ [x]) []

/-- The `sortkeycache_atomic_prune` Lua script of `src/luaScripts.ts`: list
every member, extract the distinct keys, and for each key remove all members
strictly between the genesis and last-possible sentinels except the
`entriesStored` most recent.  Unlike `sortkeycache_atomic_put` (and unlike
the standalone `src/lua/prune.lua`, which guards with
`if #cacheKeysToRemove ~= 0`), this script calls `ZREM` even when the removal
list is empty, which raises a wrong-number-of-arguments error and aborts the
script there; writes already performed by earlier loop iterations persist, as
Redis does not roll back a failed script. -/
def atomicPrune (cfg : Cfg) (entriesStored : Nat) (st : RedisState) :
    RedisState × Option RErr :=
  let allCacheKeys := zrangeByLex st.zset .negInf .posInf
  let keys := dedupKeep (allCacheKeys.map (firstToken cfg.sls))
  keys.foldl
    (fun acc key =>
      match acc with
      | (st1, some e) => (st1, some e)
      | (st1, none) =>
        let toRemove :=
          zrangeRevTail st1.zset (.excl (cfg.member key lastPossibleSortKey))
            (.excl (cfg.member key genesisSortKey)) entriesStored
        if toRemove.isEmpty then (st1, some .zremEmpty)
        else
          (⟨toRemove.foldl (fun s ck => storeDel s (cfg.storeKey ck)) st1.store,
              zrem st1.zset toRemove⟩,
            none))
    (st, none)

/-- The reserved tombstone payload (`DELETED_VALUE_PLACEHOLDER`, the empty
string): `del` stores it to mark a version deleted, and `get` reports it as a
found-but-deleted result. -/
def DELETED_VALUE_PLACEHOLDER : Str := []

/-- The result type of `get` (`SortKeyCacheResult`): the sort key the value
was found at, and the cached value, `none` for a tombstoned version.  A
non-tombstone payload is kept as the serialized string it is stored as; the
`JSON.parse` the source applies to it is the inverse of the `stringify`
applied by `put` and is not modelled further. -/
structure SKResult where
  sortKey : Str
  cachedValue : Option Str
deriving DecidableEq

/-- `get(cacheKey)`: `GET` the composite store key; `null` means not found, a
tombstone payload means found-but-deleted, anything else is the value. -/
def getOp (cfg : Cfg) (rs : RedisState) (key sortKey : Str) :
    Option SKResult :=
  match storeGet rs.store (cfg.storeKey (cfg.member key sortKey)) with
  | none => none
  | some res =>
    if res = DELETED_VALUE_PLACEHOLDER then some ⟨sortKey, none⟩
    else some ⟨sortKey, some res⟩

/-- `getLatestSortKey(key, maxSortKey?)`: a descending scan over
`[{key}{sls}{max}] … ({key}{sls}{genesis}` limited to one member; the member
found is split on the separator and must have exactly two components.
`maxSortKey || lastPossibleSortKey` is JavaScript truthiness: an absent *or
empty* bound falls back to the last possible sort key. -/
def getLatestSortKey (cfg : Cfg) (rs : RedisState) (key : Str)
    (maxSortKey : Option Str) : Except RErr (Option Str) :=
  let mx :=
    match maxSortKey with
    | some m => if m = [] then lastPossibleSortKey else m
    | none => lastPossibleSortKey
  let result :=
    (zrevrangeByLex rs.zset (.incl (cfg.member key mx))
        (.excl (cfg.member key genesisSortKey))).take 1
  match result with
  | [] => .ok none
  | r :: _ =>
    match splitChar cfg.sls r with
    | [_, b] => .ok (some b)
    | _ => .error .notCacheKey

/-- `getLessOrEqual(key, sortKey)`: locate the latest sort key `≤ sortKey`,
then `get` it. -/
def getLessOrEqual (cfg : Cfg) (rs : RedisState) (key sortKey : Str) :
    Except RErr (Option SKResult) :=
  match getLatestSortKey cfg rs key (some sortKey) with
  | .error e => .error e
  | .ok none => .ok none
  | .ok (some latest) => .ok (getOp cfg rs key latest)

/-- `getLast(key) = getLessOrEqual(key, lastPossibleSortKey)`. -/
def getLast (cfg : Cfg) (rs : RedisState) (key : Str) :
    Except RErr (Option SKResult) :=
  getLessOrEqual cfg rs key lastPossibleSortKey

/-- One step of the `reduce` inside `reduceCacheKeys`: the accumulator is the
pair (result so far, `prevKey`), and a cache key is appended when its sort-key
component is within `maxSortKey` and its key component differs from
`prevKey`.  A missing second component is JavaScript `undefined`, and
`undefined <= maxSortKey` is false. -/
def reduceStep (sep : Char) (maxSortKey : Option Str) (acc : List Str × Str)
    (cacheKey : Str) : List Str × Str :=
  let key := comp0 sep cacheKey
  let keep : Bool :=
    match maxSortKey with
    | none => true
    | some mx =>
      match comp1 sep cacheKey with
      | none => false
      | some sk => leb sk mx
  if keep then
    if acc.2 ≠ key then (acc.1 ++ [cacheKey], key) else acc
  else acc

/-- `reduceCacheKeys(cacheKeys, maxSortKey?)`: walk the (descending) list once
and keep, per key, the first member whose sort key is `≤ maxSortKey`;
`prevKey` starts as the empty string. -/
def reduceCacheKeys (sep : Char) (cacheKeys : List Str)
    (maxSortKey : Option Str) : List Str :=
  (cacheKeys.foldl (reduceStep sep maxSortKey) ([], [])).1

/-- `SortKeyCacheRangeOptions`: every field optional. -/
structure RangeOpts where
  gte : Option Str := none
  lt : Option Str := none
  limit : Option Nat := none
  reverse : Bool := false

/-- `l.slice(0, limit)` with an optional limit. -/
def takeOpt : Option Nat → List Str → List Str
  | none, l => l
  | some n, l => l.take n

/-- The effective limit of a `cacheKeys` query: the `if (options.limit)`
truthiness test makes a zero limit count as absent. -/
def limitOf (options : Option RangeOpts) : Option Nat :=
  match options with
  | none => none
  | some o =>
    match o.limit with
    | some l => if l = 0 then none else some l
    | none => none

/-- The effective reverse flag of a `cacheKeys` query. -/
def reverseOf (options : Option RangeOpts) : Bool :=
  match options with
  | none => false
  | some o => o.reverse

/-- The upper scan bound of `cacheKeys`: `(lt|genesisSortKey` exclusive when
an `lt` option is given (`+` otherwise; the empty string is falsy and counts
as absent). -/
def upperBoundOf (cfg : Cfg) (options : Option RangeOpts) : Bound :=
  match options with
  | some o =>
    match o.lt with
    | some l =>
      if l = [] then .posInf else .excl (l ++ cfg.sls :: genesisSortKey)
    | none => .posInf
  | none => .posInf

/-- The lower scan bound of `cacheKeys`: `(gte|genesisSortKey` exclusive when
a `gte` option is given (`-` otherwise; the empty string is falsy and counts
as absent). -/
def lowerBoundOf (cfg : Cfg) (options : Option RangeOpts) : Bound :=
  match options with
  | some o =>
    match o.gte with
    | some g =>
      if g = [] then .negInf else .excl (g ++ cfg.sls :: genesisSortKey)
    | none => .negInf
  | none => .negInf

/-- `cacheKeys(sortKey, options?)`: compute the scan bounds from the options,
scan the whole range descending, reduce to the latest member per key within
`sortKey`, restore ascending order unless `reverse`, and truncate to
`limit`. -/
def cacheKeysOp (cfg : Cfg) (rs : RedisState) (sortKey : Str)
    (options : Option RangeOpts) : List Str :=
  let cacheKeys :=
    zrevrangeByLex rs.zset (upperBoundOf cfg options) (lowerBoundOf cfg options)
  let latestCacheKeys := reduceCacheKeys cfg.sls cacheKeys (some sortKey)
  let latestCacheKeys :=
    if !(reverseOf options) then latestCacheKeys.reverse else latestCacheKeys
  takeOpt (limitOf options) latestCacheKeys

/-- `keys(sortKey, options?)`: the key components of `cacheKeys`. -/
def keysOp (cfg : Cfg) (rs : RedisState) (sortKey : Str)
    (options : Option RangeOpts) : List Str :=
  (cacheKeysOp cfg rs sortKey options).map (comp0 cfg.sls)

/-- The `JSON.parse(values[i])` of `kvMap`: `MGET` yields `null` for an
absent key and `JSON.parse(null)` is `null`; the empty tombstone payload is
not valid JSON, so parsing it throws; any payload written by `put` came from
`stringify` and parses back (modelled as the serialized string itself). -/
def jparse : Option Str → Except RErr (Option Str)
  | none => .ok none
  | some v => if v = [] then .error .jsonSyntax else .ok (some v)

/-- The `for` loop of `kvMap`: parse each selected member's `MGET` result in
order and pair it with the member's key component; the first `JSON.parse`
failure propagates. -/
def kvLoop (cfg : Cfg) (rs : RedisState) :
    List Str → Except RErr (List (Str × Option Str))
  | [] => .ok []
  | ck :: rest =>
    match jparse (storeGet rs.store (cfg.storeKey ck)) with
    | .error e => .error e
    | .ok v =>
      match kvLoop cfg rs rest with
      | .error e => .error e
      | .ok tail => .ok ((comp0 cfg.sls ck, v) :: tail)

/-- `kvMap(sortKey, options?)`: select with `cacheKeys`, `MGET` the selected
store keys and parse each payload, pairing it with the member's key
component.  When the selection is empty, `mget` is issued with zero keys and
Redis rejects it (`MGET` takes at least one key), so the call throws.  The
JavaScript builds a `Map` insertion-ordered by the selected members; the
model keeps that association list. -/
def kvMapOp (cfg : Cfg) (rs : RedisState) (sortKey : Str)
    (options : Option RangeOpts) : Except RErr (List (Str × Option Str)) :=
  if cacheKeysOp cfg rs sortKey options = [] then .error .mgetArity
  else kvLoop cfg rs (cacheKeysOp cfg rs sortKey options)

/-! ## The atomicity manager -/

/-- A mutation queued in a `MULTI` transaction: both `put` and `del` queue the
`sortkeycache_atomic_put` script (with the tombstone payload for `del`), and
`prune` queues `sortkeycache_atomic_prune`. -/
inductive Mut
  | putM (key sortKey value : Str)
  | pruneM (entriesStored : Nat)
deriving DecidableEq

/-- Run one queued mutation against the store. -/
def applyMut (cfg : Cfg) (st : RedisState) : Mut → RedisState × Option RErr
  | .putM key sortKey value => (atomicPut cfg key sortKey value st, none)
  | .pruneM n => atomicPrune cfg n st

/-- `EXEC`: the queued commands run back to back; a command that errors is
reported in the reply array but does not stop the commands after it. -/
def commitFold (cfg : Cfg) (st : RedisState) (muts : List Mut) : RedisState :=
  muts.foldl (fun s m => (applyMut cfg s m).1) st

/-- A cache instance's mutable state: the backing store and the transaction
field, `none` when idle and `some buf` when a `MULTI` pipeline holding the
queued mutations is active. -/
structure CacheState where
  rs : RedisState
  txn : Option (List Mut)

/-- `begin()`: throws `"Already begun"` when a transaction is active,
otherwise allocates an empty pipeline. -/
def beginOp (cs : CacheState) : CacheState × Option RErr :=
  match cs.txn with
  | some _ => (cs, some .alreadyBegun)
  | none => (⟨cs.rs, some []⟩, none)

/-- `rollback()`: throws `"No transaction"` when idle, otherwise discards the
pipeline. -/
def rollbackOp (cs : CacheState) : CacheState × Option RErr :=
  match cs.txn with
  | none => (cs, some .noTransaction)
  | some _ => (⟨cs.rs, none⟩, none)

/-- `commit()`: throws `"No transaction"` when idle, otherwise `EXEC`s the
queued mutations as one indivisible unit and clears the pipeline. -/
def commitOp (cfg : Cfg) (cs : CacheState) : CacheState × Option RErr :=
  match cs.txn with
  | none => (cs, some .noTransaction)
  | some muts => (⟨commitFold cfg cs.rs muts, none⟩, none)

/-- `put(cacheKey, value)` through `asAtomic()`: queued while a transaction is
active, run immediately otherwise. -/
def putCall (cfg : Cfg) (cs : CacheState) (key sortKey value : Str) :
    CacheState :=
  match cs.txn with
  | some buf => ⟨cs.rs, some (buf ++ [.putM key sortKey value])⟩
  | none => ⟨atomicPut cfg key sortKey value cs.rs, none⟩

/-- `del(cacheKey)`: a `put` of the tombstone payload at that exact
(key, sortKey). -/
def delCall (cfg : Cfg) (cs : CacheState) (key sortKey : Str) : CacheState :=
  putCall cfg cs key sortKey DELETED_VALUE_PLACEHOLDER

/-- `delete(key)`: `del` at the genesis sort key. -/
def deleteCall (cfg : Cfg) (cs : CacheState) (key : Str) : CacheState :=
  delCall cfg cs key genesisSortKey

/-- `PruneStats` (`entriesBefore`/`entriesAfter`). -/
structure PruneStats where
  entriesBefore : Nat
  entriesAfter : Nat
deriving DecidableEq

/-- `prune(entriesStored = 1)`: clamp a missing or non-positive argument to 1,
run (or queue) `sortkeycache_atomic_prune`, and return `null` — the
`PruneStats | null` result is always `null`. -/
def pruneCall (cfg : Cfg) (cs : CacheState) (entriesStored : Nat) :
    (CacheState × Option RErr) × Option PruneStats :=
  let eff := if entriesStored = 0 then 1 else entriesStored
  match cs.txn with
  | some buf => ((⟨cs.rs, some (buf ++ [.pruneM eff])⟩, none), none)
  | none =>
    let (rs1, err) := atomicPrune cfg eff cs.rs
    ((⟨rs1, none⟩, err), none)

/-- Decidable equality of `Except` results, for evaluating the engine at
concrete inputs. -/
instance {ε α : Type} [DecidableEq ε] [DecidableEq α] :
    DecidableEq (Except ε α) := fun x y =>
  match x, y with
  | .ok a, .ok b =>
    if h : a = b then isTrue (by rw [h])
    else isFalse (fun he => h (Except.ok.inj he))
  | .error a, .error b =>
    if h : a = b then isTrue (by rw [h])
    else isFalse (fun he => h (Except.error.inj he))
  | .ok _, .error _ => isFalse (fun he => Except.noConfusion he)
  | .error _, .ok _ => isFalse (fun he => Except.noConfusion he)

/-! ## Concrete inputs used by scenario evaluations -/

/-- A configuration with prefix `p`, separator `|`, and the constructor's
default retention bounds `minEntriesPerContract = maxEntriesPerContract = 10`. -/
def cfgDefault : Cfg :=
  { dbLocation := "p".data, sls := '|',
    minEntriesPerContract := 10, maxEntriesPerContract := 10 }

/-- The configuration of the retention scenario: `minEntriesPerContract = 5`,
`maxEntriesPerContract = 10`. -/
def cfgRetention : Cfg :=
  { dbLocation := "p".data, sls := '|',
    minEntriesPerContract := 5, maxEntriesPerContract := 10 }

/-- Eleven versions `"11" … "21"` (strictly increasing, all above the genesis
sort key) with payloads `"100" … "1100"`. -/
def elevenPuts : List (Str × Str) :=
  (List.range 11).map (fun i => ((Nat.repr (i + 11)).data, (Nat.repr (100 * (i + 1))).data))

/-- The sequence of `atomicPut`s of a put sequence to one key. -/
def putFold (cfg : Cfg) (key : Str) (vs : List (Str × Str)) (st : RedisState) :
    RedisState :=
  vs.foldl (fun s p => atomicPut cfg key p.1 p.2 s) st

/-- The state of the C2 scenario: `put({key "k", sortKey "01"}, 10)` followed
by `delete("k")`, no transaction active. -/
def c2State : CacheState :=
  deleteCall cfgDefault
    (putCall cfgDefault ⟨RedisState.empty, none⟩ ("k".data) ("01".data) ("10".data))
    ("k".data)

/-- A namespace holding one key `a` with the single version `01`. -/
def c3State : RedisState :=
  atomicPut cfgDefault ("a".data) ("01".data) ("100".data) RedisState.empty

/-- A namespace holding one key `a` with versions `01` and `02`. -/
def c9State : RedisState :=
  atomicPut cfgDefault ("a".data) ("02".data) ("200".data) c3State

/-- A namespace whose single member is the tombstoned version `1` of key
`a` — the state after `del({key "a", sortKey "1"})` on an empty namespace. -/
def c10State : RedisState :=
  atomicPut cfgDefault ("a".data) ("1".data) DELETED_VALUE_PLACEHOLDER RedisState.empty

/-- A namespace holding the single entry key `a`, version `2`. -/
def c7State : RedisState :=
  atomicPut cfgDefault ("a".data) ("2".data) ("100".data) RedisState.empty

/-! ## Client-call layer for the transaction claims -/

/-- A mutating client call. -/
inductive Call
  | putC (key sortKey value : Str)
  | delC (key sortKey : Str)
  | deleteC (key : Str)
  | pruneC (n : Nat)

/-- The mutation a call queues on an active `MULTI` pipeline. -/
def Call.toMut : Call → Mut
  | .putC k sk v => .putM k sk v
  | .delC k sk => .putM k sk DELETED_VALUE_PLACEHOLDER
  | .deleteC k => .putM k genesisSortKey DELETED_VALUE_PLACEHOLDER
  | .pruneC n => .pruneM (if n = 0 then 1 else n)

/-- Dispatch a mutating client call against the cache state. -/
def doCall (cfg : Cfg) (cs : CacheState) : Call → CacheState
  | .putC k sk v => putCall cfg cs k sk v
  | .delC k sk => delCall cfg cs k sk
  | .deleteC k => deleteCall cfg cs k
  | .pruneC n => (pruneCall cfg cs n).1.1

/-- Issue a sequence of mutating client calls. -/
def issueCalls (cfg : Cfg) (cs : CacheState) (calls : List Call) : CacheState :=
  calls.foldl (doCall cfg) cs

/-- How many of the currently retained versions one `atomicPut` evicts, when
`n` versions of the key are retained before the put. -/
def trimDrop (m M n : Nat) : Nat := if M < n + 1 then n - m else 0

/-- The number of versions of a key retained after the `i`-th put of a
strictly increasing put sequence: the count grows by one per put until it
would exceed `maxEntriesPerContract`, and the trim then cuts it to
`minEntriesPerContract + 1` — the inserted version plus the
`minEntriesPerContract` most recent below it. -/
def retainCount (m M : Nat) : Nat → Nat
  | 0 => 0
  | i + 1 =>
    if M < retainCount m M i + 1 then m + 1 else retainCount m M i + 1

/-- The configuration of the C1 witness: `minEntriesPerContract = 1`,
`maxEntriesPerContract = 2`. -/
def cfgSmall : Cfg :=
  { dbLocation := "p".data, sls := '|',
    minEntriesPerContract := 1, maxEntriesPerContract := 2 }

/-- Three strictly increasing versions for the C1 witness. -/
def threePuts : List (Str × Str) :=
  [(("1".data), ("a".data)), (("2".data), ("b".data)), (("3".data), ("c".data))]

/-- The structural companion of `dedupKeep`: drop every element already seen
and every later duplicate. -/
def nubFrom (seen : List Str) : List Str → List Str
  | [] => []
  | x :: xs =>
    if x ∈ seen then nubFrom seen xs else x :: nubFrom (seen ++ [x]) xs

/-- A composite member, `key ++ sls ++ version`. -/
def encMember (sep : Char) (p : Str × Str) : Str := p.1 ++ sep :: p.2

/-- Spec-side (from the claim's words): is `k` an in-range key, `gte ≤ k`
and `k < lt`? -/
def specInRange (gte lt : Option Str) (k : Str) : Bool :=
  (match gte with
    | none => true
    | some g => leb g k) &&
  (match lt with
    | none => true
    | some l => ltb k l)

/-- The greatest element of a list of version strings. -/
def maxB : List Str → Option Str
  | [] => none
  | v :: vs => some (vs.foldl (fun a b => if ltb a b then b else a) v)

/-- Spec-side: the greatest version of key `k` among `entries` that is
`≤ bound`, if any. -/
def maxVerLe (entries : List (Str × Str)) (k : Str) (bound : Str) :
    Option Str :=
  maxB (((entries.filter (fun p => p.1 = k)).map Prod.snd).filter
    (fun v => leb v bound))

/-- Spec-side: one pair per distinct key of `entries` holding a version
`≤ bound` — the key with that greatest version — in the order the distinct
keys appear in `entries`. -/
def specSelPairs (entries : List (Str × Str)) (bound : Str) :
    List (Str × Str) :=
  (dedupKeep (entries.map Prod.fst)).filterMap
    (fun k => (maxVerLe entries k bound).map (fun v => (k, v)))

/-- Spec-side description of `cacheKeys(sortKey, options)` from the claim's
words: keep the in-range entries, select per distinct in-range key the entry
with the greatest version `≤ bound` (ascending key order), reverse when
`reverse` is set, and truncate the final reduced list to `limit`. -/
def specCacheKeys (sep : Char) (entries : List (Str × Str)) (bound : Str)
    (gte lt : Option Str) (limit : Option Nat) (rev : Bool) : List Str :=
  let er := entries.filter (fun p => specInRange gte lt p.1)
  let sel := (specSelPairs er bound).map (encMember sep)
  takeOpt limit (if rev then sel.reverse else sel)

/-- Spec-side description of `keys(sortKey, options)`: the key components of
the same selection. -/
def specKeysList (entries : List (Str × Str)) (bound : Str)
    (gte lt : Option Str) (limit : Option Nat) (rev : Bool) : List Str :=
  let er := entries.filter (fun p => specInRange gte lt p.1)
  let sel := (specSelPairs er bound).map Prod.fst
  takeOpt limit (if rev then sel.reverse else sel)

/-- Ascending order on decoded entries: by key, then by version. -/
def pairAsc (p q : Str × Str) : Prop :=
  ltb p.1 q.1 = true ∨ (p.1 = q.1 ∧ ltb p.2 q.2 = true)

/-- Descending order on decoded entries. -/
def pairDesc (p q : Str × Str) : Prop := pairAsc q p

/-- The recursion underlying the `reduceCacheKeys` fold: `prev` is the last
emitted key. -/
def redRec (sep : Char) (mx : Option Str) : Str → List Str → List Str
  | _, [] => []
  | prev, ck :: rest =>
    let keep : Bool :=
      match mx with
      | none => true
      | some mxv =>
        match comp1 sep ck with
        | none => false
        | some sk => leb sk mxv
    if keep then
      if prev ≠ comp0 sep ck then ck :: redRec sep mx (comp0 sep ck) rest
      else redRec sep mx prev rest
    else redRec sep mx prev rest

/-- The per-key selection the descending walk performs: emit the first
member of each key run whose version qualifies, then skip the rest of the
run. -/
def selDesc (bound : Str) : List (Str × Str) → List (Str × Str)
  | [] => []
  | p :: rest =>
    if leb p.2 bound = true then
      p :: selDesc bound (rest.dropWhile (fun q => decide (q.1 = p.1)))
    else selDesc bound rest
termination_by l => l.length
decreasing_by
  all_goals simp only [List.length_cons]
  · exact Nat.lt_succ_of_le (List.Sublist.length_le (List.dropWhile_sublist _))
  · exact Nat.lt_succ_self _

/-- `q` is, among `l`, the entry with the greatest version of its key that
still qualifies under the bound. -/
def IsBest (l : List (Str × Str)) (bound : Str) (q : Str × Str) : Prop :=
  q ∈ l ∧ leb q.2 bound = true
    ∧ ∀ r ∈ l, r.1 = q.1 → leb r.2 bound = true → leb r.2 q.2 = true

/-- A two-key namespace for instantiating the range-query refinement: keys
`a` and `b` with versions `1` and `2` and payloads `10` and `20`. -/
def c7WitState : RedisState :=
  { store := [(("p.a|1".data), ("10".data)), (("p.b|2".data), ("20".data))],
    zset := [("a|1".data), ("b|2".data)] }

/-- The decoded entries of `c7WitState`. -/
def c7WitEntries : List (Str × Str) :=
  [(("a".data), ("1".data)), (("b".data), ("2".data))]

/-- The payload map of `c7WitState`. -/
def c7WitVal : Str → Str :=
  fun ck => if ck = ("a|1".data) then ("10".data) else ("20".data)

theorem ltb_irrefl (s : Str) : ltb s s = false := by
  induction s with
  | nil => rfl
  | cons a as ih => simp [ltb, lt_irrefl, ih]

theorem ltb_asymm : ∀ {s t : Str}, ltb s t = true → ltb t s = false
  | [], [], h => by simp [ltb] at h
  | [], _ :: _, _ => rfl
  | _ :: _, [], h => by simp [ltb] at h
  | a :: as, b :: bs, h => by
    rcases lt_trichotomy a b with hab | hab | hab
    · simp [ltb, hab, asymm hab, not_lt_of_gt hab]
    · subst hab
      simp only [ltb, lt_irrefl, if_false] at h ⊢
      exact ltb_asymm h
    · simp [ltb, hab, asymm hab, not_lt_of_gt hab] at h

theorem ltb_trans : ∀ {s t u : Str}, ltb s t = true → ltb t u = true → ltb s u = true
  | [], _, _ :: _, _, _ => rfl
  | [], t, [], _, h2 => by cases t <;> simp [ltb] at h2
  | _ :: _, t, [], h1, h2 => by
    cases t with
    | nil => simp [ltb] at h1
    | cons b bs => simp [ltb] at h2
  | a :: as, t, c :: cs, h1, h2 => by
    cases t with
    | nil => simp [ltb] at h1
    | cons b bs =>
      rcases lt_trichotomy a b with hab | hab | hab
      · rcases lt_trichotomy b c with hbc | hbc | hbc
        · have hac : a < c := lt_trans hab hbc
          simp [ltb, hac]
        · subst hbc; simp [ltb, hab]
        · simp [ltb, hbc, asymm hbc, not_lt_of_gt hbc] at h2
      · subst hab
        simp only [ltb, lt_irrefl, if_false] at h1
        rcases lt_trichotomy a c with hac | hac | hac
        · simp [ltb, hac]
        · subst hac
          simp only [ltb, lt_irrefl, if_false] at h2 ⊢
          exact ltb_trans h1 h2
        · simp [ltb, hac, asymm hac, not_lt_of_gt hac] at h2
      · simp [ltb, hab, asymm hab, not_lt_of_gt hab] at h1

theorem ltb_connex : ∀ {s t : Str}, ltb s t = false → ltb t s = false → s = t
  | [], [], _, _ => rfl
  | [], _ :: _, h1, _ => by simp [ltb] at h1
  | _ :: _, [], _, h2 => by simp [ltb] at h2
  | a :: as, b :: bs, h1, h2 => by
    rcases lt_trichotomy a b with hab | hab | hab
    · simp [ltb, hab] at h1
    · subst hab
      simp only [ltb, lt_irrefl, if_false] at h1 h2
      rw [ltb_connex h1 h2]
    · simp [ltb, hab] at h2

theorem leb_refl (s : Str) : leb s s = true := by
  simp [leb, ltb_irrefl]

theorem leb_of_ltb {s t : Str} (h : ltb s t = true) : leb s t = true := by
  simp [leb, ltb_asymm h]

/-- Prepending a common segment does not affect the comparison. -/
theorem ltb_append_append : ∀ (p u v : Str), ltb (p ++ u) (p ++ v) = ltb u v
  | [], _, _ => rfl
  | a :: p, u, v => by simp [ltb, lt_irrefl, ltb_append_append p u v]

/-- A proper extension is strictly greater. -/
theorem ltb_append_cons (p : Str) (c : Char) (u : Str) :
    ltb p (p ++ c :: u) = true := by
  induction p with
  | nil => rfl
  | cons a as ih => simp [ltb, lt_irrefl, ih]

/-- A string never exceeds its own extensions. -/
theorem ltb_append_self (p u : Str) : ltb (p ++ u) p = false := by
  cases u with
  | nil => simp [ltb_irrefl]
  | cons c cs => exact ltb_asymm (ltb_append_cons p c cs)

/-- When neither string leads the other, appending arbitrary suffixes does not
change the comparison: it is decided at the first differing character. -/
theorem ltb_append_of_not_pre :
    ∀ {s t : Str}, isPre s t = false → isPre t s = false →
      ∀ (u v : Str), ltb (s ++ u) (t ++ v) = ltb s t
  | [], _, h1, _, _, _ => by simp [isPre] at h1
  | _ :: _, [], _, h2, _, _ => by simp [isPre] at h2
  | a :: as, b :: bs, h1, h2, u, v => by
    rcases lt_trichotomy a b with hab | hab | hab
    · simp [ltb, hab]
    · subst hab
      simp only [isPre, if_true] at h1 h2
      simp only [List.cons_append, ltb, lt_irrefl, if_false]
      exact ltb_append_of_not_pre h1 h2 u v
    · simp [ltb, hab, asymm hab, not_lt_of_gt hab]

/-- A leading segment compares less-or-equal to the full string. -/
theorem leb_of_isPre : ∀ {s t : Str}, isPre s t = true → leb s t = true
  | [], t, _ => by cases t <;> simp [leb, ltb]
  | a :: as, b :: bs, h => by
    by_cases hab : a = b
    · subst hab
      simp only [isPre, if_true] at h
      have := leb_of_isPre (s := as) (t := bs) h
      simpa [leb, ltb, lt_irrefl] using this
    · simp [isPre, hab] at h

theorem splitChar_ne_nil (sep : Char) (s : Str) : splitChar sep s ≠ [] := by
  cases s with
  | nil => simp [splitChar]
  | cons c rest =>
    simp only [splitChar]
    cases splitChar sep rest with
    | nil => simp
    | cons t ts =>
      by_cases h : c = sep <;> simp [h]

theorem splitChar_of_not_mem {sep : Char} :
    ∀ {s : Str}, sep ∉ s → splitChar sep s = [s]
  | [], _ => rfl
  | c :: rest, h => by
    have hc : c ≠ sep := fun hc => h (hc ▸ List.mem_cons_self c rest)
    have hrest : sep ∉ rest := fun hr => h (List.mem_cons_of_mem c hr)
    simp [splitChar, splitChar_of_not_mem hrest, hc]

/-- Splitting a well-formed composite member `key ++ sep ++ sortKey` recovers
exactly the two components. -/
theorem splitChar_composite {sep : Char} :
    ∀ {k : Str}, sep ∉ k → ∀ {v : Str}, sep ∉ v →
      splitChar sep (k ++ sep :: v) = [k, v]
  | [], _, v, hv => by simp [splitChar, splitChar_of_not_mem hv]
  | c :: k, hk, v, hv => by
    have hc : c ≠ sep := fun hc => hk (hc ▸ List.mem_cons_self c k)
    have hk' : sep ∉ k := fun h => hk (List.mem_cons_of_mem c h)
    simp [splitChar, splitChar_composite hk' hv, hc]

theorem comp0_composite {sep : Char} {k v : Str} (hk : sep ∉ k) (hv : sep ∉ v) :
    comp0 sep (k ++ sep :: v) = k := by
  simp [comp0, splitChar_composite hk hv]

theorem comp1_composite {sep : Char} {k v : Str} (hk : sep ∉ k) (hv : sep ∉ v) :
    comp1 sep (k ++ sep :: v) = some v := by
  simp [comp1, splitChar_composite hk hv]

theorem storeGet_storeDel :
    ∀ (store : List (Str × Str)) (k x : Str),
      storeGet (storeDel store k) x = if x = k then none else storeGet store x
  | [], k, x => by simp [storeGet, storeDel]
  | p :: rest, k, x => by
    by_cases hpk : p.1 = k
    · by_cases hx : x = k
      · subst hx
        simpa [storeDel, hpk] using storeGet_storeDel rest x x
      · have hpx : p.1 ≠ x := fun h => hx (h ▸ hpk ▸ rfl)
        simp [storeDel, storeGet, hpk, hx, hpx, Ne.symm hx,
          storeGet_storeDel rest k x]
    · by_cases hpx : p.1 = x
      · have hx : x ≠ k := fun h => hpk (hpx.trans h)
        simp [storeDel, storeGet, hpk, hpx, hx]
      · simp [storeDel, storeGet, hpk, hpx, storeGet_storeDel rest k x]

theorem storeGet_storeSet (store : List (Str × Str)) (k v x : Str) :
    storeGet (storeSet store k v) x =
      if x = k then some v else storeGet store x := by
  by_cases hx : x = k
  · simp [storeSet, storeGet, hx]
  · simp [storeSet, storeGet, Ne.symm hx, hx, storeGet_storeDel store k x]

/-! ## Helper lemmas about the store model -/

theorem member_ltb (cfg : Cfg) (key a b : Str) :
    ltb (cfg.member key a) (cfg.member key b) = ltb a b := by
  show ltb (key ++ cfg.sls :: a) (key ++ cfg.sls :: b) = ltb a b
  rw [ltb_append_append key (cfg.sls :: a) (cfg.sls :: b)]
  simp [ltb, lt_irrefl]

theorem member_inj (cfg : Cfg) {key a b : Str}
    (h : cfg.member key a = cfg.member key b) : a = b := by
  have h2 := @List.append_cancel_left _ key (cfg.sls :: a) (cfg.sls :: b) h
  injection h2

theorem storeKey_inj (cfg : Cfg) {a b : Str}
    (h : cfg.storeKey a = cfg.storeKey b) : a = b := by
  have := @List.append_cancel_left _ cfg.dbLocation ('.' :: a) ('.' :: b) h
  injection this

theorem zadd_append_of_gt :
    ∀ (zs : List Str) (m : Str), (∀ x ∈ zs, ltb x m = true) →
      zadd zs m = zs ++ [m]
  | [], m, _ => rfl
  | x :: xs, m, h => by
    have hx : ltb x m = true := h x (List.mem_cons_self x xs)
    have hmx : ltb m x = false := ltb_asymm hx
    have hne : m ≠ x := by
      intro he; rw [he, ltb_irrefl] at hx; exact Bool.false_ne_true hx
    simp only [zadd, hmx, if_false, hne,
      zadd_append_of_gt xs m (fun y hy => h y (List.mem_cons_of_mem x hy))]
    rfl

theorem storeGet_foldl_storeDel (g : Str → Str) :
    ∀ (l : List Str) (s : List (Str × Str)) (x : Str),
      storeGet (l.foldl (fun acc ck => storeDel acc (g ck)) s) x =
        if ∃ ck ∈ l, g ck = x then none else storeGet s x
  | [], s, x => by simp
  | a :: rest, s, x => by
    rw [List.foldl_cons, storeGet_foldl_storeDel g rest (storeDel s (g a)) x,
      storeGet_storeDel s (g a) x]
    by_cases ha : g a = x
    · simp [ha]
    · by_cases hrest : ∃ ck ∈ rest, g ck = x
      · simp [hrest, ha, Ne.symm ha]
      · have : ¬ ∃ ck ∈ a :: rest, g ck = x := by
          rintro ⟨ck, hck, hgk⟩
          rcases List.mem_cons.1 hck with h | h
          · exact ha (h ▸ hgk)
          · exact hrest ⟨ck, h, hgk⟩
        simp [this, hrest, Ne.symm ha, ha]

theorem mem_zrangeRevTail {zs : List Str} {hi lo : Bound} {off : Nat} {x : Str}
    (h : x ∈ zrangeRevTail zs hi lo off) :
    x ∈ zs ∧ aboveMin lo x = true ∧ belowMax hi x = true := by
  have hx : x ∈ zrangeByLex zs lo hi :=
    List.mem_reverse.1 (List.mem_of_mem_drop h)
  have := List.mem_filter.1 hx
  exact ⟨this.1, by simpa using this.2⟩

/-! ## Claim theorems -/

/-- Claim C8: `begin` throws if and only if a transaction is already active,
`commit` and `rollback` throw if and only if none is active, and a throwing
call leaves the transaction state unchanged. -/
theorem c8_txn_state_errors (cfg : Cfg) (cs : CacheState) :
    ((beginOp cs).2.isSome ↔ cs.txn.isSome)
  ∧ ((commitOp cfg cs).2.isSome ↔ cs.txn = none)
  ∧ ((rollbackOp cs).2.isSome ↔ cs.txn = none)
  ∧ ((beginOp cs).2.isSome → (beginOp cs).1 = cs)
  ∧ ((commitOp cfg cs).2.isSome → (commitOp cfg cs).1 = cs)
  ∧ ((rollbackOp cs).2.isSome → (rollbackOp cs).1 = cs) := by
  obtain ⟨rs, txn⟩ := cs
  cases txn <;> simp [beginOp, commitOp, rollbackOp]

/-- Claim C9 (amended): `prune` never reports counts — its
`PruneStats | null` result is always `null`, whatever the namespace state and
`entriesStored` argument. -/
theorem c9_prune_returns_null (cfg : Cfg) (cs : CacheState) (n : Nat) :
    (pruneCall cfg cs n).2 = none := by
  obtain ⟨rs, txn⟩ := cs
  cases txn <;> simp [pruneCall]

/-- Claim C9 (counterexample): on a namespace with one key holding versions
`01` and `02`, `prune(1)` completes without error, deletes the old version,
and still returns `null` rather than the before/after counts. -/
theorem c9_prune_null_counterexample :
    (pruneCall cfgDefault ⟨c9State, none⟩ 1).1.2 = none
  ∧ ((pruneCall cfgDefault ⟨c9State, none⟩ 1).1.1).rs.zset = [("a|02".data)]
  ∧ (pruneCall cfgDefault ⟨c9State, none⟩ 1).2 = none := by
  refine ⟨by decide, by decide, by decide⟩

/-- Claim C2: after `put({“k”, “01”}, 10)` and `delete("k")`, `getLast("k")`
still returns the value stored at the key's highest version before the
delete — the tombstone `delete` writes at the genesis sort key is excluded by
the exclusive lower bound of every read scan, so the deletion is not
observed. -/
theorem c2_delete_then_getLast_returns_old_value :
    getLast cfgDefault c2State.rs ("k".data) =
      .ok (some ⟨"01".data, some ("10".data)⟩)
  ∧ c2State.rs.zset =
      [("k".data) ++ '|' :: genesisSortKey, ("k|01".data)] := by
  refine ⟨by decide, by decide⟩

/-- Claim C3: on a namespace whose only key `a` holds a single version, the
`sortkeycache_atomic_prune` script of `src/luaScripts.ts` computes an empty
removal list for `a` and then calls `ZREM` with no members, which raises a
wrong-number-of-arguments error and aborts the script — `prune(1)` fails
instead of leaving `min(1, 1) = 1` version. -/
theorem c3_prune_single_entry_errors :
    (pruneCall cfgDefault ⟨c3State, none⟩ 1).1.2 = some RErr.zremEmpty
  ∧ ((pruneCall cfgDefault ⟨c3State, none⟩ 1).1.1).rs = c3State := by
  refine ⟨by decide, by decide⟩

/-- Claim C6 (counterexample): with the default separator `|`, keys `a` and
`ab` (neither containing the separator) order as `a < ab`, but their
composite entries order as `a|1 > ab|1` — the separator sorts above `b`, so
the composite order crosses the key boundary in the proper-prefix case. -/
theorem c6_composite_order_counterexample :
    ('|' ∉ ("a".data : Str))
  ∧ ('|' ∉ ("ab".data : Str))
  ∧ ltb ("a".data) ("ab".data) = true
  ∧ ltb (("a".data) ++ '|' :: ("1".data)) (("ab".data) ++ '|' :: ("1".data)) = false := by
  refine ⟨by decide, by decide, by decide, by decide⟩

/-- Claim C6 (amended): for keys `k1 ≠ k2` not containing the configured
separator, of which neither is a leading segment of the other, the
lexicographic order of the composite entries agrees with the lexicographic
order of the keys alone, for every pair of versions. -/
theorem c6_composite_order_agrees (sep : Char) (k1 k2 v1 v2 : Str)
    (h1 : sep ∉ k1) (h2 : sep ∉ k2)
    (h3 : isPre k1 k2 = false) (h4 : isPre k2 k1 = false) :
    ltb (k1 ++ sep :: v1) (k2 ++ sep :: v2) = ltb k1 k2 :=
  ltb_append_of_not_pre h3 h4 (sep :: v1) (sep :: v2)

/-- Witness for the amended claim C6 at `k1 = a`, `k2 = b`, `v1 = 1`,
`v2 = 2`, separator `|`. -/
theorem c6_composite_order_agrees_witness :
    ltb (("a".data) ++ '|' :: ("1".data)) (("b".data) ++ '|' :: ("2".data)) =
      ltb ("a".data) ("b".data) :=
  c6_composite_order_agrees '|' ("a".data) ("b".data) ("1".data) ("2".data)
    (by decide) (by decide) (by decide) (by decide)

theorem doCall_active (cfg : Cfg) (rs : RedisState) (buf : List Mut)
    (c : Call) : doCall cfg ⟨rs, some buf⟩ c = ⟨rs, some (buf ++ [c.toMut])⟩ := by
  cases c <;>
    simp [doCall, putCall, delCall, deleteCall, pruneCall, Call.toMut]

theorem issueCalls_active (cfg : Cfg) :
    ∀ (calls : List Call) (rs : RedisState) (buf : List Mut),
      issueCalls cfg ⟨rs, some buf⟩ calls =
        ⟨rs, some (buf ++ calls.map Call.toMut)⟩
  | [], rs, buf => by simp [issueCalls]
  | c :: rest, rs, buf => by
    show issueCalls cfg (doCall cfg ⟨rs, some buf⟩ c) rest = _
    rw [doCall_active cfg rs buf c]
    rw [issueCalls_active cfg rest rs (buf ++ [c.toMut])]
    simp

/-- After `atomicPut`, the written composite store key holds exactly the
written payload: the trim only deletes members strictly below the inserted
one. -/
theorem storeGet_atomicPut_self (cfg : Cfg) (key sortKey value : Str)
    (rs : RedisState) :
    storeGet (atomicPut cfg key sortKey value rs).store
      (cfg.storeKey (cfg.member key sortKey)) = some value := by
  unfold atomicPut
  simp only []
  split
  · split
    · rw [storeGet_storeSet]; simp
    · rw [storeGet_foldl_storeDel, if_neg]
      · rw [storeGet_storeSet]; simp
      · rintro ⟨ck, hck, hk⟩
        have hb := (mem_zrangeRevTail hck).2.2
        have hlt : ltb ck (cfg.member key sortKey) = true := by
          simpa [belowMax] using hb
        rw [storeKey_inj cfg hk, ltb_irrefl] at hlt
        exact Bool.false_ne_true hlt
  · rw [storeGet_storeSet]; simp

/-! ## Remaining claim theorems (first batch) -/

/-- Claim C4: `get` has exactly three outcomes — not-found exactly when
nothing is stored at the composite (key, sortKey), found-deleted (the queried
sort key with a `null` value) exactly when the tombstone payload is stored
there, the stored value otherwise — and immediately after `del(cacheKey)`
(no transaction active) the version reads back as found-deleted, never as
not-found. -/
theorem c4_get_three_outcomes (cfg : Cfg) (rs : RedisState) (key sortKey : Str) :
    ((getOp cfg rs key sortKey = none ↔
        storeGet rs.store (cfg.storeKey (cfg.member key sortKey)) = none)
  ∧ (getOp cfg rs key sortKey = some ⟨sortKey, none⟩ ↔
        storeGet rs.store (cfg.storeKey (cfg.member key sortKey)) =
          some DELETED_VALUE_PLACEHOLDER)
  ∧ (∀ v, v ≠ DELETED_VALUE_PLACEHOLDER →
      (getOp cfg rs key sortKey = some ⟨sortKey, some v⟩ ↔
        storeGet rs.store (cfg.storeKey (cfg.member key sortKey)) = some v)))
  ∧ getOp cfg (delCall cfg ⟨rs, none⟩ key sortKey).rs key sortKey =
      some ⟨sortKey, none⟩ := by
  refine ⟨⟨?_, ?_, ?_⟩, ?_⟩
  · cases h : storeGet rs.store (cfg.storeKey (cfg.member key sortKey)) with
    | none => simp [getOp, h]
    | some res =>
      by_cases hres : res = DELETED_VALUE_PLACEHOLDER <;> simp [getOp, h, hres]
  · cases h : storeGet rs.store (cfg.storeKey (cfg.member key sortKey)) with
    | none => simp [getOp, h]
    | some res =>
      by_cases hres : res = DELETED_VALUE_PLACEHOLDER <;>
        simp [getOp, h, hres, DELETED_VALUE_PLACEHOLDER]
  · intro v hv
    have hv' : v ≠ ([] : Str) := by simpa [DELETED_VALUE_PLACEHOLDER] using hv
    cases h : storeGet rs.store (cfg.storeKey (cfg.member key sortKey)) with
    | none => simp [getOp, h]
    | some res =>
      by_cases hres : res = DELETED_VALUE_PLACEHOLDER
      · subst hres
        simp [getOp, h, DELETED_VALUE_PLACEHOLDER, hv', Ne.symm hv']
      · simp only [getOp, h, hres, if_false, Option.some.injEq,
          SKResult.mk.injEq, true_and, eq_comm]
  · show getOp cfg
      (putCall cfg ⟨rs, none⟩ key sortKey DELETED_VALUE_PLACEHOLDER).rs key
        sortKey = some ⟨sortKey, none⟩
    simp only [putCall]
    show getOp cfg (atomicPut cfg key sortKey DELETED_VALUE_PLACEHOLDER rs)
      key sortKey = some ⟨sortKey, none⟩
    simp [getOp, storeGet_atomicPut_self]

/-- Only the tombstone payload makes `JSON.parse` fail in reachable stores. -/
theorem jparse_error {o : Option Str} {e : RErr} (h : jparse o = .error e) :
    e = RErr.jsonSyntax := by
  cases o with
  | none => simp [jparse] at h
  | some v =>
    by_cases hv : v = ([] : Str) <;> simp [jparse, hv] at h
    exact h.symm

theorem kvLoop_error_of_mem (cfg : Cfg) (rs : RedisState) :
    ∀ (l : List Str) (ck : Str), ck ∈ l →
      storeGet rs.store (cfg.storeKey ck) = some DELETED_VALUE_PLACEHOLDER →
      kvLoop cfg rs l = .error RErr.jsonSyntax
  | [], ck, hmem, _ => absurd hmem (List.not_mem_nil ck)
  | a :: rest, ck, hmem, hts => by
    cases hj : jparse (storeGet rs.store (cfg.storeKey a)) with
    | error e =>
      have := jparse_error hj
      subst this
      simp [kvLoop, hj]
    | ok v =>
      rcases List.mem_cons.1 hmem with h | h
      · subst h
        rw [hts] at hj
        simp [jparse, DELETED_VALUE_PLACEHOLDER] at hj
      · have := kvLoop_error_of_mem cfg rs rest ck h hts
        simp [kvLoop, hj, this]

/-- Claim C10: if any member selected by `kvMap` holds the tombstone payload
written by `del`/`delete` as its latest version within the bound, `kvMap`
fails with the `JSON.parse` error on the empty string instead of returning a
map — the deleted key is neither skipped nor reported with a deleted
marker. -/
theorem c10_kvmap_tombstone_errors (cfg : Cfg) (rs : RedisState)
    (sortKey : Str) (options : Option RangeOpts) (ck : Str)
    (hmem : ck ∈ cacheKeysOp cfg rs sortKey options)
    (hts : storeGet rs.store (cfg.storeKey ck) = some DELETED_VALUE_PLACEHOLDER) :
    kvMapOp cfg rs sortKey options = .error RErr.jsonSyntax := by
  unfold kvMapOp
  rw [if_neg (List.ne_nil_of_mem hmem)]
  exact kvLoop_error_of_mem cfg rs (cacheKeysOp cfg rs sortKey options) ck hmem hts

/-- Witness for claim C10: the namespace whose single member is the
tombstoned version `1` of key `a`; `kvMap("9")` fails with the parse error. -/
theorem c10_kvmap_tombstone_witness :
    kvMapOp cfgDefault c10State ("9".data) none = .error RErr.jsonSyntax :=
  c10_kvmap_tombstone_errors cfgDefault c10State ("9".data) none ("a|1".data)
    (by decide) (by decide)

/-- Claim C5: while a transaction is active, every mutation issued through
`put`, `del`, `delete` or `prune` is appended to the pending buffer and the
backing store — hence `get`, `getLast` and `getLessOrEqual` — is untouched;
`rollback` discards the whole buffer leaving the pre-transaction store;
`commit` applies the whole buffer in one step. -/
theorem c5_transaction_atomicity (cfg : Cfg) (rs : RedisState)
    (buf : List Mut) (calls : List Call) :
    (issueCalls cfg ⟨rs, some buf⟩ calls).rs = rs
  ∧ (issueCalls cfg ⟨rs, some buf⟩ calls).txn =
      some (buf ++ calls.map Call.toMut)
  ∧ (∀ key sortKey,
      getOp cfg (issueCalls cfg ⟨rs, some buf⟩ calls).rs key sortKey =
        getOp cfg rs key sortKey)
  ∧ (∀ key,
      getLast cfg (issueCalls cfg ⟨rs, some buf⟩ calls).rs key =
        getLast cfg rs key)
  ∧ (∀ key sortKey,
      getLessOrEqual cfg (issueCalls cfg ⟨rs, some buf⟩ calls).rs key sortKey =
        getLessOrEqual cfg rs key sortKey)
  ∧ rollbackOp (issueCalls cfg ⟨rs, some buf⟩ calls) = (⟨rs, none⟩, none)
  ∧ commitOp cfg (issueCalls cfg ⟨rs, some buf⟩ calls) =
      (⟨commitFold cfg rs (buf ++ calls.map Call.toMut), none⟩, none) := by
  rw [issueCalls_active cfg calls rs buf]
  exact ⟨rfl, rfl, fun _ _ => rfl, fun _ => rfl, fun _ _ => rfl, rfl, rfl⟩

/-! ## The trim-on-put analysis (claim C1) -/

theorem ltb_ne {a b : Str} (h : ltb a b = true) : a ≠ b := by
  intro he
  rw [he, ltb_irrefl] at h
  exact Bool.false_ne_true h

theorem atomicPut_step (cfg : Cfg) (key : Str) (S : List (Str × Str))
    (v val : Str) (st : RedisState)
    (hzs : st.zset = S.map (fun p => cfg.member key p.1))
    (hlt : ∀ p ∈ S, ltb p.1 v = true)
    (hgen : ∀ p ∈ S, ltb genesisSortKey p.1 = true)
    (hgv : ltb genesisSortKey v = true)
    (hnd : (S.map Prod.fst).Nodup) :
    (atomicPut cfg key v val st).zset
      = (S.drop (trimDrop cfg.minEntriesPerContract cfg.maxEntriesPerContract
            S.length)).map (fun p => cfg.member key p.1)
          ++ [cfg.member key v]
  ∧ ∀ x, storeGet (atomicPut cfg key v val st).store x
      = if x = cfg.storeKey (cfg.member key v) then some val
        else if ∃ p ∈ S.take (trimDrop cfg.minEntriesPerContract
            cfg.maxEntriesPerContract S.length),
            x = cfg.storeKey (cfg.member key p.1) then none
        else storeGet st.store x := by
  have hf : ∀ p : Str × Str, cfg.member key p.1 = (cfg.member key ∘ Prod.fst) p :=
    fun p => rfl
  have hinj : Function.Injective (cfg.member key) := fun a b h => member_inj cfg h
  have hndm : (S.map (fun p => cfg.member key p.1)).Nodup := by
    have h1 : ((S.map Prod.fst).map (cfg.member key)).Nodup := hnd.map hinj
    rw [List.map_map] at h1
    exact h1
  have hzadd : zadd st.zset (cfg.member key v)
      = S.map (fun p => cfg.member key p.1) ++ [cfg.member key v] := by
    rw [hzs]
    apply zadd_append_of_gt
    intro x hx
    rcases List.mem_map.1 hx with ⟨p, hp, rfl⟩
    rw [member_ltb]
    exact hlt p hp
  have hcount : zlexcount (zadd st.zset (cfg.member key v))
      (.excl (cfg.member key genesisSortKey)) (.incl (cfg.member key v))
      = S.length + 1 := by
    unfold zlexcount zrangeByLex
    rw [hzadd]
    rw [List.filter_eq_self.2 ?hall]
    case hall =>
      intro x hx
      rcases List.mem_append.1 hx with hx | hx
      · rcases List.mem_map.1 hx with ⟨p, hp, rfl⟩
        have h1 : aboveMin (.excl (cfg.member key genesisSortKey))
            (cfg.member key p.1) = true := by
          simp [aboveMin, member_ltb, hgen p hp]
        have h2 : belowMax (.incl (cfg.member key v)) (cfg.member key p.1) = true := by
          simp [belowMax, leb, member_ltb, ltb_asymm (hlt p hp)]
        simp [h1, h2]
      · rcases List.mem_singleton.1 hx with rfl
        simp [aboveMin, belowMax, member_ltb, hgv, leb_refl]
    simp
  have hckA : ∀ d, cfg.member key v ∉ (S.map (fun p => cfg.member key p.1)).take d := by
    intro d hmem
    rcases List.mem_map.1 (List.take_subset _ _ hmem) with ⟨p, hp, he⟩
    exact ltb_ne (hlt p hp) (member_inj cfg he)
  unfold atomicPut
  simp only []
  rw [hcount, hzadd]
  by_cases hM : cfg.maxEntriesPerContract < S.length + 1
  · rw [if_pos hM]
    have hrange : zrangeRevTail
        (S.map (fun p => cfg.member key p.1) ++ [cfg.member key v])
        (.excl (cfg.member key v)) (.excl (cfg.member key genesisSortKey))
        cfg.minEntriesPerContract
        = ((S.map (fun p => cfg.member key p.1)).take
            (S.length - cfg.minEntriesPerContract)).reverse := by
      unfold zrangeRevTail zrangeByLex
      rw [List.filter_append]
      have h1 : (S.map (fun p => cfg.member key p.1)).filter
          (fun mb => aboveMin (.excl (cfg.member key genesisSortKey)) mb &&
            belowMax (.excl (cfg.member key v)) mb)
          = S.map (fun p => cfg.member key p.1) := by
        apply List.filter_eq_self.2
        intro x hx
        rcases List.mem_map.1 hx with ⟨p, hp, rfl⟩
        simp [aboveMin, belowMax, member_ltb, hgen p hp, hlt p hp]
      have h2 : List.filter
          (fun mb => aboveMin (.excl (cfg.member key genesisSortKey)) mb &&
            belowMax (.excl (cfg.member key v)) mb) [cfg.member key v] = [] := by
        simp [List.filter_cons, belowMax, ltb_irrefl]
      rw [h1, h2, List.append_nil, List.drop_reverse, List.length_map]
    rw [hrange]
    by_cases hEmpty : ((S.map (fun p => cfg.member key p.1)).take
        (S.length - cfg.minEntriesPerContract)).reverse.isEmpty = true
    · rw [if_pos hEmpty]
      have htd : S.length - cfg.minEntriesPerContract = 0 := by
        rw [List.isEmpty_iff, List.reverse_eq_nil_iff, List.take_eq_nil_iff] at hEmpty
        rcases hEmpty with h | h
        · exact h
        · rw [List.map_eq_nil_iff] at h
          simp [h]
      constructor
      · simp [trimDrop, hM, htd]
      · intro x
        rw [storeGet_storeSet]
        simp [trimDrop, hM, htd]
    · rw [if_neg hEmpty]
      have hsplit := List.take_append_drop
        (S.length - cfg.minEntriesPerContract)
        (S.map (fun p => cfg.member key p.1))
      have hdisj : ∀ b ∈ (S.map (fun p => cfg.member key p.1)).drop
          (S.length - cfg.minEntriesPerContract),
          b ∉ (S.map (fun p => cfg.member key p.1)).take
            (S.length - cfg.minEntriesPerContract) := by
        intro b hb hbt
        have hnodup := hndm
        rw [← hsplit] at hnodup
        exact (List.nodup_append.1 hnodup).2.2 hbt hb
      constructor
      · show zrem (S.map (fun p => cfg.member key p.1) ++ [cfg.member key v])
            (((S.map (fun p => cfg.member key p.1)).take
              (S.length - cfg.minEntriesPerContract)).reverse)
          = _
        set A := (S.map (fun p => cfg.member key p.1)).take
          (S.length - cfg.minEntriesPerContract) with hAdef
        set B := (S.map (fun p => cfg.member key p.1)).drop
          (S.length - cfg.minEntriesPerContract) with hBdef
        have hckA' : cfg.member key v ∉ A := by
          rw [hAdef]; exact hckA _
        unfold zrem
        rw [← hsplit, List.append_assoc, List.filter_append, List.filter_append]
        rw [show List.filter (fun x => decide (x ∉ A.reverse)) A = [] from ?hA2]
        case hA2 =>
          apply List.filter_eq_nil_iff.2
          intro a ha
          simp [List.mem_reverse, ha]
        rw [show List.filter (fun x => decide (x ∉ A.reverse)) B = B from ?hB2]
        case hB2 =>
          apply List.filter_eq_self.2
          intro a ha
          simp only [hAdef, hBdef] at ha ⊢
          simp [List.mem_reverse, hdisj a ha]
        rw [show List.filter (fun x => decide (x ∉ A.reverse))
            [cfg.member key v] = [cfg.member key v] from ?hC2]
        case hC2 =>
          simp [List.filter_cons, List.mem_reverse, hckA']
        rw [List.nil_append, hBdef, ← List.map_drop]
        simp only [trimDrop, if_pos hM]
      · intro x
        rw [storeGet_foldl_storeDel]
        by_cases hx : x = cfg.storeKey (cfg.member key v)
        · rw [if_pos hx]
          rw [if_neg, hx, storeGet_storeSet, if_pos rfl]
          rintro ⟨ck', hck', hk⟩
          rw [hx] at hk
          have : ck' = cfg.member key v := storeKey_inj cfg hk
          rw [this] at hck'
          exact hckA _ (List.mem_reverse.1 hck')
        · rw [if_neg hx]
          by_cases hcond : ∃ p ∈ S.take (trimDrop cfg.minEntriesPerContract
              cfg.maxEntriesPerContract S.length),
              x = cfg.storeKey (cfg.member key p.1)
          · rw [if_pos hcond, if_pos]
            rcases hcond with ⟨p, hp, rfl⟩
            refine ⟨cfg.member key p.1, ?_, rfl⟩
            rw [List.mem_reverse, ← List.map_take]
            apply List.mem_map.2
            refine ⟨p, ?_, rfl⟩
            rw [trimDrop, if_pos hM] at hp
            exact hp
          · rw [if_neg hcond, if_neg, storeGet_storeSet, if_neg hx]
            rintro ⟨ck', hck', hk⟩
            rw [List.mem_reverse, ← List.map_take] at hck'
            rcases List.mem_map.1 hck' with ⟨p, hp, rfl⟩
            exact hcond ⟨p, by rw [trimDrop, if_pos hM]; exact hp, hk.symm⟩
  · rw [if_neg hM]
    constructor
    · simp [trimDrop, hM]
    · intro x
      rw [storeGet_storeSet]
      simp [trimDrop, hM]

theorem retainCount_le {m M : Nat} (hmM : m ≤ M) :
    ∀ i, retainCount m M i ≤ i
  | 0 => le_refl 0
  | i + 1 => by
    have ih := retainCount_le hmM i
    simp only [retainCount]
    split <;> omega

theorem c1_put_trim_general (cfg : Cfg) (key : Str) (vs : List (Str × Str))
    (hmM : cfg.minEntriesPerContract ≤ cfg.maxEntriesPerContract)
    (hchain : List.Chain' (fun p q : Str × Str => ltb p.1 q.1 = true) vs)
    (hgen : ∀ p ∈ vs, ltb genesisSortKey p.1 = true)
    (i : Nat) (hi : i ≤ vs.length) :
    (putFold cfg key (vs.take i) RedisState.empty).zset
      = ((vs.take i).drop (i - retainCount cfg.minEntriesPerContract
            cfg.maxEntriesPerContract i)).map (fun p => cfg.member key p.1)
  ∧ ∀ p ∈ vs.take i,
      storeGet (putFold cfg key (vs.take i) RedisState.empty).store
          (cfg.storeKey (cfg.member key p.1))
        = if p ∈ (vs.take i).drop (i - retainCount cfg.minEntriesPerContract
              cfg.maxEntriesPerContract i) then some p.2 else none := by
  haveI : IsTrans (Str × Str) (fun p q => ltb p.1 q.1 = true) :=
    ⟨fun _ _ _ hab hbc => ltb_trans hab hbc⟩
  haveI : IsIrrefl Str (fun a b => ltb a b = true) :=
    ⟨fun a h => by rw [ltb_irrefl] at h; exact Bool.false_ne_true h⟩
  have hpw : List.Pairwise (fun p q : Str × Str => ltb p.1 q.1 = true) vs :=
    List.chain'_iff_pairwise.1 hchain
  set m := cfg.minEntriesPerContract with hm
  set M := cfg.maxEntriesPerContract with hM
  revert hi
  induction i with
  | zero =>
    intro _
    refine ⟨by simp [putFold, RedisState.empty], ?_⟩
    intro p hp
    simp at hp
  | succ i ih =>
    intro hi
    have hi' : i ≤ vs.length := Nat.le_of_succ_le hi
    obtain ⟨ihz, ihs⟩ := ih hi'
    have hilt : i < vs.length := hi
    set c := retainCount m M i with hcdef
    have hc : c ≤ i := retainCount_le hmM i
    have htake : vs.take (i + 1) = vs.take i ++ [vs[i]] := by
      rw [← List.take_concat_get vs i hilt, List.concat_eq_append]
    have hlentake : (vs.take i).length = i := by
      rw [List.length_take]
      omega
    -- S is the set of pairs retained before the (i+1)-st put
    set S : List (Str × Str) := (vs.take i).drop (i - c) with hSdef
    have hSlen : S.length = c := by
      rw [hSdef, List.length_drop, hlentake]
      omega
    have hSsub : S ⊆ vs.take i := by
      rw [hSdef]; exact List.drop_subset _ _
    -- pairwise facts
    have hpw1 : List.Pairwise (fun p q : Str × Str => ltb p.1 q.1 = true)
        (vs.take (i + 1)) :=
      List.Pairwise.sublist (List.take_sublist (i + 1) vs) hpw
    have hpwi : List.Pairwise (fun p q : Str × Str => ltb p.1 q.1 = true)
        (vs.take i) :=
      List.Pairwise.sublist (List.take_sublist i vs) hpw
    have hrel : ∀ p ∈ vs.take i, ltb p.1 (vs[i]).1 = true := by
      have h1 := hpw1
      rw [htake] at h1
      have h2 := (List.pairwise_append.1 h1).2.2
      intro p hp
      exact h2 p hp vs[i] (List.mem_singleton.2 rfl)
    have htknd : ((vs.take i).map Prod.fst).Nodup := by
      have h1 : List.Pairwise (fun a b : Str => ltb a b = true)
          ((vs.take i).map Prod.fst) := List.pairwise_map.2 hpwi
      exact h1.nodup
    have hSpw : List.Pairwise (fun p q : Str × Str => ltb p.1 q.1 = true) S := by
      rw [hSdef]
      exact List.Pairwise.sublist (List.drop_sublist _ _) hpwi
    have hSnd : (S.map Prod.fst).Nodup := by
      have h1 : List.Pairwise (fun a b : Str => ltb a b = true)
          (S.map Prod.fst) := List.pairwise_map.2 hSpw
      exact h1.nodup
    have hSltv : ∀ p ∈ S, ltb p.1 (vs[i]).1 = true :=
      fun p hp => hrel p (hSsub hp)
    have hSgen : ∀ p ∈ S, ltb genesisSortKey p.1 = true :=
      fun p hp => hgen p (List.take_subset i vs (hSsub hp))
    have hgv : ltb genesisSortKey (vs[i]).1 = true :=
      hgen vs[i] (List.getElem_mem hilt)
    -- unfold one step of the fold
    have hfold : putFold cfg key (vs.take (i + 1)) RedisState.empty
        = atomicPut cfg key (vs[i]).1 (vs[i]).2
            (putFold cfg key (vs.take i) RedisState.empty) := by
      rw [htake]
      unfold putFold
      rw [List.foldl_append]
      rfl
    obtain ⟨stepz, steps⟩ := atomicPut_step cfg key S (vs[i]).1 (vs[i]).2
      (putFold cfg key (vs.take i) RedisState.empty) ihz hSltv hSgen hgv hSnd
    rw [hSlen] at stepz steps
    -- the retained list after the put
    have hc'pos : 1 ≤ retainCount m M (i + 1) := by
      simp only [retainCount]
      split <;> omega
    have hc'le : retainCount m M (i + 1) ≤ i + 1 := retainCount_le hmM (i + 1)
    have hkey : i - c + trimDrop m M c = (i + 1) - retainCount m M (i + 1) := by
      simp only [retainCount, trimDrop, ← hcdef]
      by_cases hMc : M < c + 1 <;> simp [hMc] <;> omega
    have hform : (vs.take (i + 1)).drop ((i + 1) - retainCount m M (i + 1))
        = S.drop (trimDrop m M c) ++ [vs[i]] := by
      rw [htake]
      rw [List.drop_append_of_le_length (by rw [hlentake]; omega)]
      rw [hSdef]
      rw [List.drop_drop]
      rw [hkey]
    constructor
    · rw [hfold, stepz, hform]
      simp
    · intro p hp
      rw [hfold, hform]
      rw [htake] at hp
      rcases List.mem_append.1 hp with hp | hp
      · -- p was put earlier
        have hpne : p.1 ≠ (vs[i]).1 := ltb_ne (hrel p hp)
        have hx1 : cfg.storeKey (cfg.member key p.1) ≠
            cfg.storeKey (cfg.member key (vs[i]).1) := by
          intro he
          exact hpne (member_inj cfg (storeKey_inj cfg he))
        rw [steps _, if_neg hx1]
        by_cases hcond : ∃ q ∈ S.take (trimDrop m M c),
            cfg.storeKey (cfg.member key p.1) = cfg.storeKey (cfg.member key q.1)
        · rcases hcond with ⟨q, hq, hqe⟩
          have hqp : q = p := by
            apply List.inj_on_of_nodup_map htknd
              (hSsub (List.take_subset _ _ hq)) hp
            exact (member_inj cfg (storeKey_inj cfg hqe)).symm
          rw [if_pos ⟨q, hq, hqe⟩]
          -- p is evicted: it is in the taken part, hence not retained
          have hpS : p ∈ S.take (trimDrop m M c) := hqp ▸ hq
          have hSnodup : S.Nodup := hSnd.of_map
          have hnotdrop : p ∉ S.drop (trimDrop m M c) := by
            intro hmem
            have := List.nodup_append.1
              (List.take_append_drop (trimDrop m M c) S ▸ hSnodup)
            exact this.2.2 hpS hmem
          have hnot : p ∉ S.drop (trimDrop m M c) ++ [vs[i]] := by
            intro hmem
            rcases List.mem_append.1 hmem with h | h
            · exact hnotdrop h
            · exact hpne (by rw [List.mem_singleton.1 h])
          rw [if_neg hnot]
        · rw [if_neg hcond, ihs p hp]
          have hiff : (p ∈ S) ↔ (p ∈ S.drop (trimDrop m M c) ++ [vs[i]]) := by
            constructor
            · intro hmem
              apply List.mem_append_left
              rcases List.mem_append.1
                (List.take_append_drop (trimDrop m M c) S ▸ hmem) with h | h
              · exact absurd ⟨p, h, rfl⟩ hcond
              · exact h
            · intro hmem
              rcases List.mem_append.1 hmem with h | h
              · exact List.drop_subset _ _ h
              · exact absurd (by rw [List.mem_singleton.1 h]) hpne
          by_cases hmem : p ∈ S
          · rw [if_pos hmem, if_pos (hiff.1 hmem)]
          · rw [if_neg hmem, if_neg (fun h => hmem (hiff.2 h))]
      · -- p is the freshly put pair
        rcases List.mem_singleton.1 hp with rfl
        rw [steps _, if_pos rfl, if_pos (List.mem_append_right _
          (List.mem_singleton.2 rfl))]

/-- Claim C1 (counterexample): with `maxRetained = 10`, `minRetained = 5`,
eleven sequential puts to one key leave six versions — the inserted one and
the five most recent below it — not the five the claim states: the trim
scans only strictly below the inserted member and skips `minRetained` of
those, so `minRetained + 1` versions survive.  The repo's own test
(`should add one more cache key to trigger deletion`) asserts exactly this:
versions 6…10 persist next to the eleventh. -/
theorem c1_put_trim_counterexample :
    (putFold cfgRetention ("c".data) elevenPuts RedisState.empty).zset
      = (elevenPuts.drop 5).map (fun p => cfgRetention.member ("c".data) p.1)
  ∧ (putFold cfgRetention ("c".data) elevenPuts RedisState.empty).zset.length
      = 6 := by
  refine ⟨by decide, by decide⟩

/-- Claim C1 (amended, witness): the general trim theorem applied to three
puts with `minRetained = 1`, `maxRetained = 2`: the third put trims to
`minRetained + 1 = 2` versions — the two most recent. -/
theorem c1_put_trim_witness :
    (putFold cfgSmall ("k".data) (threePuts.take 3) RedisState.empty).zset
      = ((threePuts.take 3).drop (3 - retainCount cfgSmall.minEntriesPerContract
            cfgSmall.maxEntriesPerContract 3)).map
          (fun p => cfgSmall.member ("k".data) p.1)
  ∧ ∀ p ∈ threePuts.take 3,
      storeGet (putFold cfgSmall ("k".data) (threePuts.take 3)
            RedisState.empty).store
          (cfgSmall.storeKey (cfgSmall.member ("k".data) p.1))
        = if p ∈ (threePuts.take 3).drop
              (3 - retainCount cfgSmall.minEntriesPerContract
                cfgSmall.maxEntriesPerContract 3) then some p.2 else none :=
  c1_put_trim_general cfgSmall ("k".data) threePuts (by decide)
    (by
      simp only [threePuts]
      exact List.Chain'.cons (by decide)
        (List.Chain'.cons (by decide) (List.chain'_singleton _)))
    (by decide) 3 (by decide)

/-! ## The range-query reduction (claim C7) -/

theorem ltb_eq_not_ltb_of_ne {a b : Str} (h : a ≠ b) :
    ltb a b = !(ltb b a) := by
  cases hab : ltb a b with
  | true => rw [ltb_asymm hab]; rfl
  | false =>
    cases hba : ltb b a with
    | true => rfl
    | false => exact absurd (ltb_connex hab hba) h

theorem leb_antisymm {a b : Str} (h1 : leb a b = true) (h2 : leb b a = true) :
    a = b := by
  simp only [leb, Bool.not_eq_true'] at h1 h2
  exact ltb_connex h2 h1

theorem leb_trans {a b c : Str} (h1 : leb a b = true) (h2 : leb b c = true) :
    leb a c = true := by
  simp only [leb, Bool.not_eq_true'] at h1 h2 ⊢
  cases hca : ltb c a with
  | false => rfl
  | true =>
    cases hbc : ltb b c with
    | true =>
      have hba := ltb_trans hbc hca
      rw [h1] at hba
      exact hba.symm
    | false =>
      have hcb : c = b := ltb_connex h2 hbc
      rw [hcb] at hca
      rw [h1] at hca
      exact hca.symm

theorem dedupKeep_eq_nubFrom_aux :
    ∀ (l : List Str) (acc : List Str),
      l.foldl (fun acc x => if x ∈ acc then acc else acc ++ [x]) acc
        = acc ++ nubFrom acc l
  | [], acc => by simp [nubFrom]
  | x :: xs, acc => by
    by_cases hx : x ∈ acc
    · simp only [List.foldl_cons, nubFrom, hx, if_true]
      exact dedupKeep_eq_nubFrom_aux xs acc
    · simp only [List.foldl_cons, nubFrom, hx, if_false]
      rw [dedupKeep_eq_nubFrom_aux xs (acc ++ [x]), List.append_assoc]
      rfl

theorem dedupKeep_eq_nubFrom (l : List Str) : dedupKeep l = nubFrom [] l := by
  unfold dedupKeep
  rw [dedupKeep_eq_nubFrom_aux l [], List.nil_append]

theorem mem_nubFrom :
    ∀ (l : List Str) (seen : List Str) (y : Str),
      y ∈ nubFrom seen l ↔ y ∈ l ∧ y ∉ seen
  | [], seen, y => by simp [nubFrom]
  | x :: xs, seen, y => by
    by_cases hx : x ∈ seen
    · rw [nubFrom, if_pos hx, mem_nubFrom xs seen y]
      constructor
      · rintro ⟨h1, h2⟩
        exact ⟨List.mem_cons_of_mem x h1, h2⟩
      · rintro ⟨h1, h2⟩
        rcases List.mem_cons.1 h1 with rfl | h1
        · exact absurd hx h2
        · exact ⟨h1, h2⟩
    · rw [nubFrom, if_neg hx]
      constructor
      · intro h
        rcases List.mem_cons.1 h with rfl | h
        · exact ⟨List.mem_cons_self _ _, hx⟩
        · rw [mem_nubFrom xs (seen ++ [x]) y] at h
          refine ⟨List.mem_cons_of_mem x h.1, fun hy => h.2 ?_⟩
          exact List.mem_append_left _ hy
      · rintro ⟨h1, h2⟩
        rcases List.mem_cons.1 h1 with rfl | h1
        · exact List.mem_cons_self _ _
        · by_cases hyx : y = x
          · subst hyx; exact List.mem_cons_self _ _
          · apply List.mem_cons_of_mem
            rw [mem_nubFrom xs (seen ++ [x]) y]
            refine ⟨h1, fun hy => ?_⟩
            rcases List.mem_append.1 hy with hy | hy
            · exact h2 hy
            · exact hyx (List.mem_singleton.1 hy)

theorem nubFrom_sublist :
    ∀ (l : List Str) (seen : List Str), (nubFrom seen l).Sublist l
  | [], _ => List.Sublist.refl []
  | x :: xs, seen => by
    by_cases hx : x ∈ seen
    · rw [nubFrom, if_pos hx]
      exact (nubFrom_sublist xs seen).cons x
    · rw [nubFrom, if_neg hx]
      exact (nubFrom_sublist xs (seen ++ [x])).cons₂ x

theorem nubFrom_nodup :
    ∀ (l : List Str) (seen : List Str), (nubFrom seen l).Nodup
  | [], _ => List.nodup_nil
  | x :: xs, seen => by
    by_cases hx : x ∈ seen
    · rw [nubFrom, if_pos hx]
      exact nubFrom_nodup xs seen
    · rw [nubFrom, if_neg hx]
      rw [List.nodup_cons]
      refine ⟨fun hmem => ?_, nubFrom_nodup xs (seen ++ [x])⟩
      exact ((mem_nubFrom xs (seen ++ [x]) x).1 hmem).2
        (List.mem_append_right _ (List.mem_singleton.2 rfl))

theorem dedupKeep_sublist (l : List Str) : (dedupKeep l).Sublist l := by
  rw [dedupKeep_eq_nubFrom]; exact nubFrom_sublist l []

theorem dedupKeep_nodup (l : List Str) : (dedupKeep l).Nodup := by
  rw [dedupKeep_eq_nubFrom]; exact nubFrom_nodup l []

theorem mem_dedupKeep (l : List Str) (y : Str) : y ∈ dedupKeep l ↔ y ∈ l := by
  rw [dedupKeep_eq_nubFrom, mem_nubFrom]
  simp

theorem foldlMax_spec :
    ∀ (l : List Str) (a : Str),
      (l.foldl (fun x y => if ltb x y then y else x) a) ∈ a :: l
    ∧ leb a (l.foldl (fun x y => if ltb x y then y else x) a) = true
    ∧ ∀ w ∈ l, leb w (l.foldl (fun x y => if ltb x y then y else x) a) = true
  | [], a => ⟨List.mem_singleton.2 rfl, leb_refl a, by simp⟩
  | y :: ys, a => by
    obtain ⟨ihmem, ihle, ihall⟩ :=
      foldlMax_spec ys (if ltb a y then y else a)
    have hab : leb a (if ltb a y then y else a) = true := by
      by_cases h : ltb a y = true
      · rw [if_pos h]; exact leb_of_ltb h
      · rw [if_neg h]; exact leb_refl a
    have hyb : leb y (if ltb a y then y else a) = true := by
      by_cases h : ltb a y = true
      · rw [if_pos h]; exact leb_refl y
      · rw [if_neg h]
        simp only [leb]
        rw [Bool.eq_false_iff.2 h]
        rfl
    refine ⟨?_, ?_, ?_⟩
    · simp only [List.foldl_cons]
      rcases List.mem_cons.1 ihmem with h | h
      · rw [h]
        by_cases hay : ltb a y = true
        · simp [hay]
        · simp [hay]
      · exact List.mem_cons_of_mem _ (List.mem_cons_of_mem _ h)
    · simp only [List.foldl_cons]
      exact leb_trans hab ihle
    · intro w hw
      simp only [List.foldl_cons]
      rcases List.mem_cons.1 hw with rfl | hw
      · exact leb_trans hyb ihle
      · exact ihall w hw

theorem maxB_some {l : List Str} {v : Str} (h : maxB l = some v) :
    v ∈ l ∧ ∀ w ∈ l, leb w v = true := by
  cases l with
  | nil => simp [maxB] at h
  | cons x xs =>
    simp only [maxB, Option.some.injEq] at h
    obtain ⟨hmem, hle, hall⟩ := foldlMax_spec xs x
    subst h
    refine ⟨hmem, ?_⟩
    intro w hw
    rcases List.mem_cons.1 hw with rfl | hw
    · exact hle
    · exact hall w hw

theorem maxB_eq_of {l : List Str} {v : Str} (hv : v ∈ l)
    (hmax : ∀ w ∈ l, leb w v = true) : maxB l = some v := by
  cases hm : maxB l with
  | none =>
    cases l with
    | nil => simp at hv
    | cons x xs => simp [maxB] at hm
  | some u =>
    obtain ⟨humem, huall⟩ := maxB_some hm
    rw [leb_antisymm (huall v hv) (hmax u humem)]

theorem reduceCacheKeys_eq_redRec_aux (sep : Char) (mx : Option Str) :
    ∀ (l : List Str) (acc : List Str) (prev : Str),
      (l.foldl (reduceStep sep mx) (acc, prev)).1 = acc ++ redRec sep mx prev l
  | [], acc, prev => by simp [redRec]
  | ck :: rest, acc, prev => by
    simp only [List.foldl_cons, reduceStep, redRec]
    cases hkeep : (match mx with
      | none => true
      | some mxv =>
        match comp1 sep ck with
        | none => false
        | some sk => leb sk mxv) with
    | false =>
      rw [if_neg (fun h => Bool.false_ne_true h),
        if_neg (fun h => Bool.false_ne_true h)]
      exact reduceCacheKeys_eq_redRec_aux sep mx rest acc prev
    | true =>
      rw [if_pos rfl, if_pos rfl]
      by_cases hprev : prev ≠ comp0 sep ck
      · rw [if_pos hprev, if_pos hprev]
        rw [reduceCacheKeys_eq_redRec_aux sep mx rest (acc ++ [ck]) (comp0 sep ck),
          List.append_assoc]
        rfl
      · rw [if_neg hprev, if_neg hprev]
        exact reduceCacheKeys_eq_redRec_aux sep mx rest acc prev

theorem reduceCacheKeys_eq_redRec (sep : Char) (mx : Option Str)
    (l : List Str) : reduceCacheKeys sep l mx = redRec sep mx [] l := by
  unfold reduceCacheKeys
  rw [reduceCacheKeys_eq_redRec_aux sep mx l [] [], List.nil_append]

theorem keys_dropWhile_ne (k : Str) :
    ∀ (l : List (Str × Str)), List.Pairwise pairDesc l →
      (∀ q ∈ l, q.1 = k ∨ ltb q.1 k = true) →
      ∀ q ∈ l.dropWhile (fun q => decide (q.1 = k)), q.1 ≠ k
  | [], _, _ => by simp
  | x :: xs, hpw, hbound => by
    by_cases hx : x.1 = k
    · rw [List.dropWhile_cons, if_pos (by simp [hx])]
      exact keys_dropWhile_ne k xs (List.pairwise_cons.1 hpw).2
        (fun q hq => hbound q (List.mem_cons_of_mem x hq))
    · rw [List.dropWhile_cons, if_neg (by simp [hx])]
      intro q hq
      rcases List.mem_cons.1 hq with rfl | hq
      · exact hx
      · intro hqk
        have hxq := (List.pairwise_cons.1 hpw).1 q hq
        rcases hxq with h | h
        · rcases hbound x (List.mem_cons_self x xs) with h2 | h2
          · exact hx h2
          · rw [hqk, ltb_asymm h2] at h
            exact Bool.false_ne_true h
        · exact hx (h.1.symm.trans hqk)

theorem redRec_skip_run (sep : Char) (mx : Option Str) (k : Str) :
    ∀ (run : List (Str × Str)) (tail : List Str),
      (∀ p ∈ run, p.1 = k) →
      (∀ p ∈ run, sep ∉ p.1 ∧ sep ∉ p.2) →
      redRec sep mx k (run.map (encMember sep) ++ tail) = redRec sep mx k tail
  | [], tail, _, _ => by simp
  | p :: run, tail, hk, hsep => by
    have hc0 : comp0 sep (encMember sep p) = p.1 :=
      comp0_composite (hsep p (List.mem_cons_self p run)).1
        (hsep p (List.mem_cons_self p run)).2
    have hrest := redRec_skip_run sep mx k run tail
      (fun q hq => hk q (List.mem_cons_of_mem p hq))
      (fun q hq => hsep q (List.mem_cons_of_mem p hq))
    simp only [List.map_cons, List.cons_append, redRec, hc0,
      hk p (List.mem_cons_self p run)]
    rw [if_neg (show ¬k ≠ k from fun h => h rfl), ite_self]
    exact hrest

theorem redRec_eq_selDesc (sep : Char) (bound : Str) :
    ∀ (l : List (Str × Str)) (prev : Str),
      (∀ p ∈ l, sep ∉ p.1 ∧ sep ∉ p.2) →
      List.Pairwise pairDesc l →
      prev ∉ l.map Prod.fst →
      redRec sep (some bound) prev (l.map (encMember sep)) =
        (selDesc bound l).map (encMember sep)
  | [], prev, _, _, _ => by simp [redRec, selDesc]
  | p :: rest, prev, hsep, hpw, hprev => by
    have hsp := hsep p (List.mem_cons_self p rest)
    have hc0 : comp0 sep (encMember sep p) = p.1 :=
      comp0_composite hsp.1 hsp.2
    have hc1 : comp1 sep (encMember sep p) = some p.2 :=
      comp1_composite hsp.1 hsp.2
    have hprevp : prev ≠ p.1 := by
      intro he
      exact hprev (he ▸ List.mem_map.2 ⟨p, List.mem_cons_self p rest, rfl⟩)
    simp only [List.map_cons, redRec, hc0, hc1]
    by_cases hkeep : leb p.2 bound = true
    case neg =>
      rw [if_neg hkeep]
      rw [redRec_eq_selDesc sep bound rest prev
        (fun q hq => hsep q (List.mem_cons_of_mem p hq))
        (List.pairwise_cons.1 hpw).2
        (fun hmem => hprev (List.mem_map.1 hmem |>.elim
          (fun q hq => List.mem_map.2 ⟨q, List.mem_cons_of_mem p hq.1, hq.2⟩)))]
      rw [show selDesc bound (p :: rest) = selDesc bound rest from by
        rw [selDesc]; exact if_neg hkeep]
    case pos =>
      rw [if_pos hkeep, if_pos hprevp]
      have hsplit := List.takeWhile_append_dropWhile
        (fun q => decide (q.1 = p.1)) rest
      have hrunkeys : ∀ q ∈ rest.takeWhile (fun q => decide (q.1 = p.1)),
          q.1 = p.1 := by
        intro q hq
        have := List.mem_takeWhile_imp hq
        simpa using this
      have hrunsep : ∀ q ∈ rest.takeWhile (fun q => decide (q.1 = p.1)),
          sep ∉ q.1 ∧ sep ∉ q.2 := by
        intro q hq
        exact hsep q (List.mem_cons_of_mem p (List.takeWhile_subset _ hq))
      have hdropsub : (rest.dropWhile (fun q => decide (q.1 = p.1))).Sublist rest :=
        List.dropWhile_sublist _
      have hbound2 : ∀ q ∈ rest, q.1 = p.1 ∨ ltb q.1 p.1 = true := by
        intro q hq
        rcases (List.pairwise_cons.1 hpw).1 q hq with h | h
        · exact Or.inr h
        · exact Or.inl h.1
      have hnotk : p.1 ∉ (rest.dropWhile
          (fun q => decide (q.1 = p.1))).map Prod.fst := by
        intro hmem
        rcases List.mem_map.1 hmem with ⟨q, hq, hqe⟩
        exact keys_dropWhile_ne p.1 rest (List.pairwise_cons.1 hpw).2
          hbound2 q hq hqe
      have hstep : redRec sep (some bound) p.1 (rest.map (encMember sep))
          = (selDesc bound (rest.dropWhile
              (fun q => decide (q.1 = p.1)))).map (encMember sep) := by
        conv_lhs => rw [← hsplit]
        rw [List.map_append]
        rw [redRec_skip_run sep (some bound) p.1 _ _ hrunkeys hrunsep]
        exact redRec_eq_selDesc sep bound _ p.1
          (fun q hq => hsep q
            (List.mem_cons_of_mem p (hdropsub.subset hq)))
          (List.Pairwise.sublist hdropsub (List.pairwise_cons.1 hpw).2)
          hnotk
      rw [hstep]
      rw [show selDesc bound (p :: rest)
          = p :: selDesc bound (rest.dropWhile (fun q => decide (q.1 = p.1)))
        from by rw [selDesc]; exact if_pos hkeep]
      rfl
termination_by l => l.length
decreasing_by
  all_goals simp only [List.length_cons]
  all_goals first
    | exact Nat.lt_succ_self _
    | exact Nat.lt_succ_of_le (List.Sublist.length_le (List.dropWhile_sublist _))

theorem selDesc_subset (bound : Str) :
    ∀ (l : List (Str × Str)), ∀ q ∈ selDesc bound l, q ∈ l
  | [], q, hq => by simp [selDesc] at hq
  | p :: rest, q, hq => by
    by_cases hkeep : leb p.2 bound = true
    · rw [show selDesc bound (p :: rest)
          = p :: selDesc bound (rest.dropWhile (fun r => decide (r.1 = p.1)))
        from by rw [selDesc]; exact if_pos hkeep] at hq
      rcases List.mem_cons.1 hq with rfl | hq
      · exact List.mem_cons_self q rest
      · exact List.mem_cons_of_mem p
          ((List.dropWhile_sublist _).subset
            (selDesc_subset bound _ q hq))
    · rw [show selDesc bound (p :: rest) = selDesc bound rest
        from by rw [selDesc]; exact if_neg hkeep] at hq
      exact List.mem_cons_of_mem p (selDesc_subset bound rest q hq)
termination_by l => l.length
decreasing_by
  all_goals simp only [List.length_cons]
  all_goals first
    | exact Nat.lt_succ_self _
    | exact Nat.lt_succ_of_le (List.Sublist.length_le (List.dropWhile_sublist _))

theorem selDesc_mem_iff (bound : Str) :
    ∀ (l : List (Str × Str)), List.Pairwise pairDesc l →
      ∀ q, q ∈ selDesc bound l ↔ IsBest l bound q
  | [], _, q => by simp [selDesc, IsBest]
  | p :: rest, hpw, q => by
    have hpwrest := (List.pairwise_cons.1 hpw).2
    have hphead := (List.pairwise_cons.1 hpw).1
    by_cases hkeep : leb p.2 bound = true
    · rw [show selDesc bound (p :: rest)
          = p :: selDesc bound (rest.dropWhile (fun r => decide (r.1 = p.1)))
        from by rw [selDesc]; exact if_pos hkeep]
      have hsplit := List.takeWhile_append_dropWhile
        (fun r => decide (r.1 = p.1)) rest
      have hbound2 : ∀ r ∈ rest, r.1 = p.1 ∨ ltb r.1 p.1 = true := by
        intro r hr
        rcases hphead r hr with h | h
        · exact Or.inr h
        · exact Or.inl h.1
      have hdk := keys_dropWhile_ne p.1 rest hpwrest hbound2
      have hdpw : List.Pairwise pairDesc
          (rest.dropWhile (fun r => decide (r.1 = p.1))) :=
        List.Pairwise.sublist (List.dropWhile_sublist _) hpwrest
      have ih := selDesc_mem_iff bound
        (rest.dropWhile (fun r => decide (r.1 = p.1))) hdpw
      constructor
      · intro hq
        rcases List.mem_cons.1 hq with rfl | hq
        · refine ⟨List.mem_cons_self q rest, hkeep, ?_⟩
          intro r hr hrk _
          rcases List.mem_cons.1 hr with rfl | hr
          · exact leb_refl r.2
          · rcases hphead r hr with h | h
            · rw [hrk] at h
              rw [ltb_irrefl] at h
              exact absurd h (by simp)
            · exact leb_of_ltb h.2
        · obtain ⟨hqmem, hqle, hqall⟩ := (ih q).1 hq
          have hqk : q.1 ≠ p.1 := hdk q hqmem
          refine ⟨List.mem_cons_of_mem p
            ((List.dropWhile_sublist _).subset hqmem), hqle, ?_⟩
          intro r hr hrk hrle
          rcases List.mem_cons.1 hr with rfl | hr
          · exact absurd hrk.symm hqk
          · -- r ∈ rest: r in take part has key p.1 ≠ q.1; r in drop part use hqall
            have : r ∈ rest.takeWhile (fun s => decide (s.1 = p.1))
                ∨ r ∈ rest.dropWhile (fun s => decide (s.1 = p.1)) := by
              rw [← hsplit] at hr
              exact List.mem_append.1 hr
            rcases this with h | h
            · have := List.mem_takeWhile_imp h
              simp only [decide_eq_true_eq] at this
              rw [this] at hrk
              exact absurd hrk.symm hqk
            · exact hqall r h hrk hrle
      · rintro ⟨hqmem, hqle, hqall⟩
        rcases List.mem_cons.1 hqmem with rfl | hqrest
        · exact List.mem_cons_self q _
        · by_cases hqk : q.1 = p.1
          · -- impossible: p dominates q but q must dominate p
            rcases hphead q hqrest with h | h
            · rw [hqk, ltb_irrefl] at h
              exact absurd h (by simp)
            · have h1 := hqall p (List.mem_cons_self p rest) hqk.symm hkeep
              have h2 := leb_of_ltb h.2
              have := leb_antisymm h1 h2
              rw [this] at h
              rw [ltb_irrefl] at h
              exact absurd h.2 (by simp)
          · apply List.mem_cons_of_mem
            apply (ih q).2
            have hqdrop : q ∈ rest.dropWhile (fun s => decide (s.1 = p.1)) := by
              have : q ∈ rest.takeWhile (fun s => decide (s.1 = p.1))
                  ∨ q ∈ rest.dropWhile (fun s => decide (s.1 = p.1)) := by
                rw [← hsplit] at hqrest
                exact List.mem_append.1 hqrest
              rcases this with h | h
              · have := List.mem_takeWhile_imp h
                simp only [decide_eq_true_eq] at this
                exact absurd this hqk
              · exact h
            refine ⟨hqdrop, hqle, ?_⟩
            intro r hr hrk hrle
            exact hqall r (List.mem_cons_of_mem p
              ((List.dropWhile_sublist _).subset hr)) hrk hrle
    · rw [show selDesc bound (p :: rest) = selDesc bound rest
        from by rw [selDesc]; exact if_neg hkeep]
      have ih := selDesc_mem_iff bound rest hpwrest
      constructor
      · intro hq
        obtain ⟨hqmem, hqle, hqall⟩ := (ih q).1 hq
        refine ⟨List.mem_cons_of_mem p hqmem, hqle, ?_⟩
        intro r hr hrk hrle
        rcases List.mem_cons.1 hr with rfl | hr
        · exact absurd hrle hkeep
        · exact hqall r hr hrk hrle
      · rintro ⟨hqmem, hqle, hqall⟩
        rcases List.mem_cons.1 hqmem with rfl | hqrest
        · exact absurd hqle hkeep
        · exact (ih q).2 ⟨hqrest, hqle,
            fun r hr hrk hrle => hqall r (List.mem_cons_of_mem p hr) hrk hrle⟩
termination_by l => l.length
decreasing_by
  all_goals simp only [List.length_cons]
  all_goals first
    | exact Nat.lt_succ_self _
    | exact Nat.lt_succ_of_le (List.Sublist.length_le (List.dropWhile_sublist _))

theorem selDesc_pairwise (bound : Str) :
    ∀ (l : List (Str × Str)), List.Pairwise pairDesc l →
      List.Pairwise (fun a b : Str × Str => ltb b.1 a.1 = true)
        (selDesc bound l)
  | [], _ => by simp [selDesc]
  | p :: rest, hpw => by
    have hpwrest := (List.pairwise_cons.1 hpw).2
    have hphead := (List.pairwise_cons.1 hpw).1
    by_cases hkeep : leb p.2 bound = true
    · rw [show selDesc bound (p :: rest)
          = p :: selDesc bound (rest.dropWhile (fun r => decide (r.1 = p.1)))
        from by rw [selDesc]; exact if_pos hkeep]
      have hbound2 : ∀ r ∈ rest, r.1 = p.1 ∨ ltb r.1 p.1 = true := by
        intro r hr
        rcases hphead r hr with h | h
        · exact Or.inr h
        · exact Or.inl h.1
      have hdk := keys_dropWhile_ne p.1 rest hpwrest hbound2
      rw [List.pairwise_cons]
      refine ⟨?_, selDesc_pairwise bound _
        (List.Pairwise.sublist (List.dropWhile_sublist _) hpwrest)⟩
      intro q hq
      have hqmem := selDesc_subset bound _ q hq
      have hqk : q.1 ≠ p.1 := hdk q hqmem
      rcases hbound2 q ((List.dropWhile_sublist _).subset hqmem) with h | h
      · exact absurd h hqk
      · exact h
    · rw [show selDesc bound (p :: rest) = selDesc bound rest
        from by rw [selDesc]; exact if_neg hkeep]
      exact selDesc_pairwise bound rest hpwrest
termination_by l => l.length
decreasing_by
  all_goals simp only [List.length_cons]
  all_goals first
    | exact Nat.lt_succ_self _
    | exact Nat.lt_succ_of_le (List.Sublist.length_le (List.dropWhile_sublist _))

theorem eq_of_pairwise_iff {α : Type} {R : α → α → Prop}
    (hasymm : ∀ a b, R a b → R b a → False) :
    ∀ (l1 l2 : List α), List.Pairwise R l1 → List.Pairwise R l2 →
      (∀ x, x ∈ l1 ↔ x ∈ l2) → l1 = l2
  | [], [], _, _, _ => rfl
  | [], b :: t2, _, _, hm => by
    have := (hm b).2 (List.mem_cons_self b t2)
    simp at this
  | a :: t1, [], _, _, hm => by
    have := (hm a).1 (List.mem_cons_self a t1)
    simp at this
  | a :: t1, b :: t2, h1, h2, hm => by
    have hha := (List.pairwise_cons.1 h1).1
    have hhb := (List.pairwise_cons.1 h2).1
    have hab : a = b := by
      rcases List.mem_cons.1 ((hm a).1 (List.mem_cons_self a t1)) with h | h
      · exact h
      · rcases List.mem_cons.1 ((hm b).2 (List.mem_cons_self b t2)) with h' | h'
        · exact h'.symm
        · exact absurd (hha b h') (fun hR => hasymm _ _ hR (hhb a h))
    subst hab
    have htail : ∀ x, x ∈ t1 ↔ x ∈ t2 := by
      intro x
      constructor
      · intro hx
        rcases List.mem_cons.1 ((hm x).1 (List.mem_cons_of_mem a hx)) with h | h
        · exact absurd (hha x hx) (h ▸ fun hR => hasymm _ _ hR hR)
        · exact h
      · intro hx
        rcases List.mem_cons.1 ((hm x).2 (List.mem_cons_of_mem a hx)) with h | h
        · exact absurd (hhb x hx) (h ▸ fun hR => hasymm _ _ hR hR)
        · exact h
    rw [eq_of_pairwise_iff hasymm t1 t2 (List.pairwise_cons.1 h1).2
      (List.pairwise_cons.1 h2).2 htail]

theorem maxVerLe_some_iff (er : List (Str × Str)) (k bound v : Str) :
    maxVerLe er k bound = some v ↔
      ((k, v) ∈ er ∧ leb v bound = true
        ∧ ∀ r ∈ er, r.1 = k → leb r.2 bound = true → leb r.2 v = true) := by
  unfold maxVerLe
  constructor
  · intro h
    obtain ⟨hmem, hall⟩ := maxB_some h
    rw [List.mem_filter] at hmem
    obtain ⟨hmem1, hvb⟩ := hmem
    rcases List.mem_map.1 hmem1 with ⟨r, hr, hrv⟩
    rw [List.mem_filter] at hr
    obtain ⟨hrer, hrk⟩ := hr
    simp only [decide_eq_true_eq] at hrk
    obtain ⟨r1, r2⟩ := r
    simp only at hrv hrk
    subst hrv hrk
    refine ⟨hrer, hvb, ?_⟩
    intro s hs hsk hsb
    apply hall
    rw [List.mem_filter]
    refine ⟨List.mem_map.2 ⟨s, List.mem_filter.2 ⟨hs, by simp [hsk]⟩, rfl⟩, hsb⟩
  · rintro ⟨hmem, hvb, hall⟩
    apply maxB_eq_of
    · rw [List.mem_filter]
      exact ⟨List.mem_map.2 ⟨(k, v), List.mem_filter.2 ⟨hmem, by simp⟩, rfl⟩, hvb⟩
    · intro w hw
      rw [List.mem_filter] at hw
      obtain ⟨hw1, hwb⟩ := hw
      rcases List.mem_map.1 hw1 with ⟨r, hr, hrw⟩
      rw [List.mem_filter] at hr
      simp only [decide_eq_true_eq] at hr
      subst hrw
      exact hall r hr.1 hr.2 hwb

theorem mem_specSelPairs (er : List (Str × Str)) (bound : Str)
    (q : Str × Str) : q ∈ specSelPairs er bound ↔ IsBest er bound q := by
  unfold specSelPairs
  rw [List.mem_filterMap]
  constructor
  · rintro ⟨k, hk, hke⟩
    rw [Option.map_eq_some'] at hke
    obtain ⟨v, hv, hvq⟩ := hke
    obtain ⟨q1, q2⟩ := q
    have hk1 : k = q1 := congrArg Prod.fst hvq
    have hv2 : v = q2 := congrArg Prod.snd hvq
    subst hk1 hv2
    have := (maxVerLe_some_iff er k bound v).1 hv
    exact ⟨this.1, this.2.1, this.2.2⟩
  · rintro ⟨hqmem, hqb, hqall⟩
    refine ⟨q.1, ?_, ?_⟩
    · rw [mem_dedupKeep]
      exact List.mem_map.2 ⟨q, hqmem, rfl⟩
    · rw [Option.map_eq_some']
      refine ⟨q.2, ?_, rfl⟩
      apply (maxVerLe_some_iff er q.1 bound q.2).2
      exact ⟨hqmem, hqb, hqall⟩

theorem specSelPairs_pairwise (er : List (Str × Str)) (bound : Str)
    (hpw : List.Pairwise pairAsc er) :
    List.Pairwise (fun a b : Str × Str => ltb a.1 b.1 = true)
      (specSelPairs er bound) := by
  have hkeys : List.Pairwise
      (fun a b : Str => ltb a b = true ∨ a = b) (er.map Prod.fst) := by
    apply List.pairwise_map.2
    apply hpw.imp
    intro a b hab
    rcases hab with h | h
    · exact Or.inl h
    · exact Or.inr h.1
  have hdedup : List.Pairwise (fun a b : Str => ltb a b = true)
      (dedupKeep (er.map Prod.fst)) := by
    have h1 : List.Pairwise (fun a b : Str => ltb a b = true ∨ a = b)
        (dedupKeep (er.map Prod.fst)) :=
      List.Pairwise.sublist (dedupKeep_sublist _) hkeys
    have h2 : List.Pairwise (fun a b : Str => a ≠ b)
        (dedupKeep (er.map Prod.fst)) := dedupKeep_nodup _
    apply (h1.and h2).imp
    intro a b hab
    rcases hab.1 with h | h
    · exact h
    · exact absurd h hab.2
  apply List.pairwise_filterMap.2
  apply hdedup.imp_of_mem
  intro a b _ _ hab
  intro x hx y hy
  rw [Option.mem_def, Option.map_eq_some'] at hx hy
  obtain ⟨v, _, hvx⟩ := hx
  obtain ⟨w, _, hwy⟩ := hy
  rw [← hvx, ← hwy]
  exact hab

theorem IsBest_reverse (l : List (Str × Str)) (bound : Str) (q : Str × Str) :
    IsBest l.reverse bound q ↔ IsBest l bound q := by
  unfold IsBest
  rw [List.mem_reverse]
  constructor
  · rintro ⟨h1, h2, h3⟩
    exact ⟨h1, h2, fun r hr => h3 r (List.mem_reverse.2 hr)⟩
  · rintro ⟨h1, h2, h3⟩
    exact ⟨h1, h2, fun r hr => h3 r (List.mem_reverse.1 hr)⟩

theorem selDesc_reverse_eq (er : List (Str × Str)) (bound : Str)
    (hpw : List.Pairwise pairAsc er) :
    selDesc bound er.reverse = (specSelPairs er bound).reverse := by
  have hpwrev : List.Pairwise pairDesc er.reverse :=
    List.pairwise_reverse.2 (hpw.imp (fun h => h))
  apply eq_of_pairwise_iff
    (R := fun a b : Str × Str => ltb b.1 a.1 = true)
  · intro a b h1 h2
    have := ltb_asymm h1
    rw [this] at h2
    exact Bool.false_ne_true h2
  · exact selDesc_pairwise bound er.reverse hpwrev
  · exact List.pairwise_reverse.2
      ((specSelPairs_pairwise er bound hpw).imp (fun h => h))
  · intro x
    rw [selDesc_mem_iff bound er.reverse hpwrev x, IsBest_reverse,
      List.mem_reverse, mem_specSelPairs]

theorem ltb_cons_same (c : Char) (u v : Str) :
    ltb (c :: u) (c :: v) = ltb u v := by
  simp [ltb, lt_irrefl]

theorem aboveMin_excl_genesis (sep : Char) (g : Str) (p : Str × Str)
    (hgen : ltb genesisSortKey p.2 = true)
    (hnp1 : p.1 ≠ g → isPre p.1 g = false)
    (hnp2 : p.1 ≠ g → isPre g p.1 = false) :
    aboveMin (Bound.excl (g ++ sep :: genesisSortKey)) (encMember sep p)
      = leb g p.1 := by
  show ltb (g ++ sep :: genesisSortKey) (p.1 ++ sep :: p.2) = leb g p.1
  by_cases hk : p.1 = g
  · rw [hk, ltb_append_append, ltb_cons_same, leb_refl]
    exact hgen
  · rw [ltb_append_of_not_pre (hnp2 hk) (hnp1 hk)]
    rw [ltb_eq_not_ltb_of_ne (fun he => hk he.symm)]
    rfl

theorem belowMax_excl_genesis (sep : Char) (l : Str) (p : Str × Str)
    (hgen : ltb genesisSortKey p.2 = true)
    (hnp1 : p.1 ≠ l → isPre p.1 l = false)
    (hnp2 : p.1 ≠ l → isPre l p.1 = false) :
    belowMax (Bound.excl (l ++ sep :: genesisSortKey)) (encMember sep p)
      = ltb p.1 l := by
  show ltb (p.1 ++ sep :: p.2) (l ++ sep :: genesisSortKey) = ltb p.1 l
  by_cases hk : p.1 = l
  · rw [hk, ltb_append_append, ltb_cons_same, ltb_asymm hgen, ltb_irrefl]
  · rw [ltb_append_of_not_pre (hnp1 hk) (hnp2 hk)]

/-- The descending scan followed by the `reduceCacheKeys` walk computes
exactly the spec-level selection (reversed, since the walk is descending). -/
theorem reduce_pipeline (cfg : Cfg) (entries : List (Str × Str)) (bound : Str)
    (gte lt : Option Str) (lb ub : Bound)
    (hwf : ∀ p ∈ entries, p.1 ≠ [] ∧ cfg.sls ∉ p.1 ∧ cfg.sls ∉ p.2)
    (hpe : List.Pairwise pairAsc entries)
    (hpt : ∀ p ∈ entries,
      (aboveMin lb (encMember cfg.sls p) && belowMax ub (encMember cfg.sls p))
        = specInRange gte lt p.1) :
    reduceCacheKeys cfg.sls
        (zrevrangeByLex (entries.map (encMember cfg.sls)) ub lb) (some bound)
      = ((specSelPairs (entries.filter (fun p => specInRange gte lt p.1))
          bound).map (encMember cfg.sls)).reverse := by
  have hermem : ∀ p ∈ entries.filter (fun p => specInRange gte lt p.1),
      p ∈ entries := fun p hp => (List.mem_filter.1 hp).1
  have herpw : List.Pairwise pairAsc
      (entries.filter (fun p => specInRange gte lt p.1)) :=
    List.Pairwise.sublist (List.filter_sublist entries) hpe
  have hscan : zrangeByLex (entries.map (encMember cfg.sls)) lb ub
      = (entries.filter (fun p => specInRange gte lt p.1)).map
          (encMember cfg.sls) := by
    unfold zrangeByLex
    rw [List.filter_map]
    congr 1
    exact List.filter_congr hpt
  unfold zrevrangeByLex
  rw [hscan, ← List.map_reverse, reduceCacheKeys_eq_redRec]
  rw [redRec_eq_selDesc cfg.sls bound _ []
    (fun p hp => ⟨(hwf p (hermem p (List.mem_reverse.1 hp))).2.1,
      (hwf p (hermem p (List.mem_reverse.1 hp))).2.2⟩)
    (List.pairwise_reverse.2 (herpw.imp (fun h => h)))
    (fun hmem => by
      rcases List.mem_map.1 hmem with ⟨p, hp, hpe1⟩
      exact (hwf p (hermem p (List.mem_reverse.1 hp))).1 hpe1)]
  rw [selDesc_reverse_eq _ bound herpw, List.map_reverse]

theorem kvLoop_ok (cfg : Cfg) (rs : RedisState) (val : Str → Str) :
    ∀ l : List Str,
      (∀ ck ∈ l, storeGet rs.store (cfg.storeKey ck) = some (val ck)
        ∧ val ck ≠ []) →
      kvLoop cfg rs l
        = .ok (l.map (fun ck => (comp0 cfg.sls ck, some (val ck))))
  | [], _ => rfl
  | ck :: rest, h => by
    obtain ⟨hget, hne⟩ := h ck (List.mem_cons_self ck rest)
    have ih := kvLoop_ok cfg rs val rest
      (fun c hc => h c (List.mem_cons_of_mem ck hc))
    simp only [kvLoop, hget, jparse, hne, if_false, ih, List.map_cons]

theorem takeOpt_subset (n : Option Nat) (l : List Str) :
    ∀ x ∈ takeOpt n l, x ∈ l := by
  cases n with
  | none => exact fun x hx => hx
  | some k => exact fun x hx => List.take_subset k l hx

/-- Claim C7 (amended): over a well-formed namespace — members decompose
uniquely (keys nonempty and separator-free, versions separator-free and
strictly above the genesis sort key), no key is a leading segment of another
key or of a range bound or vice versa, and the limit option is not the falsy
`0` — `cacheKeys`/`keys` return exactly one entry per distinct in-range key,
the entry with the greatest version `≤ sortKey`, in ascending key order when
`reverse` is unset (descending otherwise) with `limit` truncating the final
reduced list; provided every selected payload is present and not the
tombstone, `kvMap` returns those keys paired with the parsed stored values
when the selection is nonempty, and throws on the zero-key `MGET` when it is
empty. -/
theorem c7_keys_kvmap_spec (cfg : Cfg) (rs : RedisState)
    (entries : List (Str × Str)) (bound : Str) (opts : RangeOpts)
    (val : Str → Str)
    (hzs : rs.zset = entries.map (encMember cfg.sls))
    (hsort : List.Pairwise (fun a b : Str => ltb a b = true) rs.zset)
    (hwf : ∀ p ∈ entries, p.1 ≠ [] ∧ cfg.sls ∉ p.1 ∧ cfg.sls ∉ p.2
      ∧ ltb genesisSortKey p.2 = true)
    (hnp : ∀ p ∈ entries, ∀ q ∈ entries, p.1 ≠ q.1 → isPre p.1 q.1 = false)
    (hgteH : ∀ g, opts.gte = some g → g ≠ [] ∧ ∀ p ∈ entries, p.1 ≠ g →
      isPre p.1 g = false ∧ isPre g p.1 = false)
    (hltH : ∀ l, opts.lt = some l → l ≠ [] ∧ ∀ p ∈ entries, p.1 ≠ l →
      isPre p.1 l = false ∧ isPre l p.1 = false)
    (hlim : opts.limit ≠ some 0)
    (hstore : ∀ p ∈ entries,
      storeGet rs.store (cfg.storeKey (encMember cfg.sls p))
        = some (val (encMember cfg.sls p)) ∧ val (encMember cfg.sls p) ≠ []) :
    cacheKeysOp cfg rs bound (some opts)
      = specCacheKeys cfg.sls entries bound opts.gte opts.lt opts.limit
          opts.reverse
  ∧ keysOp cfg rs bound (some opts)
      = specKeysList entries bound opts.gte opts.lt opts.limit opts.reverse
  ∧ kvMapOp cfg rs bound (some opts)
      = (if specCacheKeys cfg.sls entries bound opts.gte opts.lt opts.limit
            opts.reverse = [] then .error .mgetArity
         else .ok ((specCacheKeys cfg.sls entries bound opts.gte opts.lt
            opts.limit opts.reverse).map
              (fun ck => (comp0 cfg.sls ck, some (val ck))))) := by
  obtain ⟨gte, lt, lim0, rev⟩ := opts
  dsimp only at hgteH hltH hlim ⊢
  have hpe : List.Pairwise pairAsc entries := by
    rw [hzs] at hsort
    have h1 := List.pairwise_map.1 hsort
    apply h1.imp_of_mem
    intro p q hp hq hlt'
    by_cases hk : p.1 = q.1
    · right
      refine ⟨hk, ?_⟩
      unfold encMember at hlt'
      rw [hk, ltb_append_append, ltb_cons_same] at hlt'
      exact hlt'
    · left
      unfold encMember at hlt'
      rw [ltb_append_of_not_pre (hnp p hp q hq hk)
        (hnp q hq p hp (fun he => hk he.symm))] at hlt'
      exact hlt'
  have hwf3 : ∀ p ∈ entries, p.1 ≠ [] ∧ cfg.sls ∉ p.1 ∧ cfg.sls ∉ p.2 :=
    fun p hp => ⟨(hwf p hp).1, (hwf p hp).2.1, (hwf p hp).2.2.1⟩
  have habove : ∀ p ∈ entries,
      aboveMin (lowerBoundOf cfg (some ⟨gte, lt, lim0, rev⟩))
          (encMember cfg.sls p)
        = (match gte with | none => true | some g => leb g p.1) := by
    intro p hp
    cases gte with
    | none => rfl
    | some g =>
      obtain ⟨hg0, hgp⟩ := hgteH g rfl
      show aboveMin (if g = [] then Bound.negInf
        else Bound.excl (g ++ cfg.sls :: genesisSortKey)) _ = leb g p.1
      rw [if_neg hg0]
      exact aboveMin_excl_genesis cfg.sls g p (hwf p hp).2.2.2
        (fun hne => (hgp p hp hne).1) (fun hne => (hgp p hp hne).2)
  have hbelow : ∀ p ∈ entries,
      belowMax (upperBoundOf cfg (some ⟨gte, lt, lim0, rev⟩))
          (encMember cfg.sls p)
        = (match lt with | none => true | some l => ltb p.1 l) := by
    intro p hp
    cases lt with
    | none => rfl
    | some l =>
      obtain ⟨hl0, hlp⟩ := hltH l rfl
      show belowMax (if l = [] then Bound.posInf
        else Bound.excl (l ++ cfg.sls :: genesisSortKey)) _ = ltb p.1 l
      rw [if_neg hl0]
      exact belowMax_excl_genesis cfg.sls l p (hwf p hp).2.2.2
        (fun hne => (hlp p hp hne).1) (fun hne => (hlp p hp hne).2)
  have hpt : ∀ p ∈ entries,
      (aboveMin (lowerBoundOf cfg (some ⟨gte, lt, lim0, rev⟩))
          (encMember cfg.sls p)
        && belowMax (upperBoundOf cfg (some ⟨gte, lt, lim0, rev⟩))
          (encMember cfg.sls p))
        = specInRange gte lt p.1 := by
    intro p hp
    rw [habove p hp, hbelow p hp]
    unfold specInRange
    cases gte <;> cases lt <;> rfl
  have hlim' : limitOf (some (⟨gte, lt, lim0, rev⟩ : RangeOpts)) = lim0 := by
    cases lim0 with
    | none => rfl
    | some l =>
      show (if l = 0 then none else some l) = some l
      rw [if_neg (fun h0 => hlim (by rw [h0]))]
  have hselmem : ∀ q ∈ specSelPairs
      (entries.filter (fun p => specInRange gte lt p.1)) bound,
      q ∈ entries := by
    intro q hq
    have := (mem_specSelPairs _ bound q).1 hq
    exact (List.mem_filter.1 this.1).1
  have h1 : cacheKeysOp cfg rs bound (some ⟨gte, lt, lim0, rev⟩)
      = specCacheKeys cfg.sls entries bound gte lt lim0 rev := by
    unfold cacheKeysOp specCacheKeys
    dsimp only
    rw [hzs]
    rw [reduce_pipeline cfg entries bound gte lt
      (lowerBoundOf cfg (some ⟨gte, lt, lim0, rev⟩))
      (upperBoundOf cfg (some ⟨gte, lt, lim0, rev⟩)) hwf3 hpe hpt]
    rw [hlim']
    rw [show reverseOf (some (⟨gte, lt, lim0, rev⟩ : RangeOpts)) = rev from rfl]
    cases rev with
    | false => simp
    | true => simp
  refine ⟨h1, ?_, ?_⟩
  · unfold keysOp
    rw [h1]
    unfold specCacheKeys specKeysList
    dsimp only
    have hmc : (specSelPairs (entries.filter
          (fun p => specInRange gte lt p.1)) bound).map
        (fun p => comp0 cfg.sls (encMember cfg.sls p))
        = (specSelPairs (entries.filter
            (fun p => specInRange gte lt p.1)) bound).map Prod.fst := by
      apply List.map_congr_left
      intro q hq
      have hqe := hselmem q hq
      exact comp0_composite (hwf q hqe).2.1 (hwf q hqe).2.2.1
    have hbase : ((specSelPairs (entries.filter
          (fun p => specInRange gte lt p.1)) bound).map
            (encMember cfg.sls)).map (comp0 cfg.sls)
        = (specSelPairs (entries.filter
            (fun p => specInRange gte lt p.1)) bound).map Prod.fst := by
      rw [List.map_map]
      exact hmc
    cases rev with
    | false =>
      rw [if_neg Bool.false_ne_true, if_neg Bool.false_ne_true]
      cases lim0 with
      | none => simpa [takeOpt] using hbase
      | some n =>
        show (List.map (comp0 cfg.sls) (List.take n _)) = List.take n _
        rw [List.map_take, hbase]
    | true =>
      rw [if_pos rfl, if_pos rfl]
      cases lim0 with
      | none =>
        show (List.map (comp0 cfg.sls) (List.reverse _)) = List.reverse _
        rw [List.map_reverse, hbase]
      | some n =>
        show (List.map (comp0 cfg.sls) (List.take n (List.reverse _)))
          = List.take n (List.reverse _)
        rw [List.map_take, List.map_reverse, hbase]
  · unfold kvMapOp
    rw [h1]
    by_cases hS : specCacheKeys cfg.sls entries bound gte lt lim0 rev = []
    · rw [if_pos hS, if_pos hS]
    rw [if_neg hS, if_neg hS]
    apply kvLoop_ok
    intro ck hck
    have hmem : ck ∈ (specSelPairs (entries.filter
        (fun p => specInRange gte lt p.1)) bound).map (encMember cfg.sls) := by
      unfold specCacheKeys at hck
      have h4 := takeOpt_subset lim0 _ ck hck
      cases rev with
      | false => exact h4
      | true => exact List.mem_reverse.1 h4
    rcases List.mem_map.1 hmem with ⟨q, hq, rfl⟩
    exact hstore q (hselmem q hq)

/-- Claim C7 (witness): on the two-key namespace `c7WitState` with no range
options, `cacheKeys`, `keys` and `kvMap` coincide with the claim's selection
semantics. -/
theorem c7_keys_kvmap_spec_witness :
    cacheKeysOp cfgDefault c7WitState ("9".data) (some {})
      = specCacheKeys '|' c7WitEntries ("9".data) none none none false
  ∧ keysOp cfgDefault c7WitState ("9".data) (some {})
      = specKeysList c7WitEntries ("9".data) none none none false
  ∧ kvMapOp cfgDefault c7WitState ("9".data) (some {})
      = .ok ((specCacheKeys '|' c7WitEntries ("9".data) none none none
          false).map (fun ck => (comp0 '|' ck, some (c7WitVal ck)))) := by
  have h := c7_keys_kvmap_spec cfgDefault c7WitState c7WitEntries ("9".data)
    {} c7WitVal
    (by decide) (by decide) (by decide) (by decide)
    (fun g h => nomatch h) (fun l h => nomatch h) (by decide) (by decide)
  exact ⟨h.1, h.2.1, h.2.2.trans (by decide)⟩

/-- Claim C7 (counterexample): when one key is a leading segment of another
in-range bound, the scan bounds built from composite members disagree with
key order — with `gte = "ab"`, `keys` returns the out-of-range key `a`
(because the member `a|2` sorts above the bound member `ab|…`), while the
claim's per-key selection returns nothing; so the claim fails without a
no-prefix hypothesis on keys and bounds. -/
theorem c7_keys_spec_counterexample :
    keysOp cfgDefault c7State ("9".data)
        (some { gte := some ("ab".data) }) = [("a".data)]
  ∧ specKeysList [(("a".data), ("2".data))] ("9".data)
        (some ("ab".data)) none none false = []
  ∧ ltb ("a".data) ("ab".data) = true := by
  refine ⟨by decide, by decide, by decide⟩

end WarpRedis
